import Mathlib

/-!
Verification development for the ledger-frontend account-tree, formatting and
chart-aggregation logic.  The TypeScript sources are embedded shallowly:

* JS machine numbers carrying ledger amounts are modelled as exact integers
  (`Int`); every concrete amount appearing in the sources and the spec is
  integral, so no floating-point behaviour is modelled.
* `decimal.js` values are modelled as pairs `(m : Int, e : Nat)` denoting
  `m / 10^e` (the library stores exactly such scaled decimal significands,
  normalized to carry no trailing fractional zeros).
* JS `Map` objects are modelled as insertion-ordered association lists,
  `Array.prototype.sort` (stable since ES2019) as a stable insertion sort,
  and `String.prototype.split` / `Array.prototype.join` by explicit
  character-list recursion.
-/

namespace Ledger

/-! ### JS string primitives -/

/-- `String.prototype.split(c)` for a single-character separator:
splitting `""` yields `[""]`, empty pieces are preserved. -/
def splitChAux (c : Char) : List Char → List String
  | [] => [""]
  | x :: xs =>
    let r := splitChAux c xs
    if x = c then "" :: r
    else
      match r with
      | [] => [String.mk [x]]
      | h :: t => String.mk (x :: h.data) :: t

def splitCh (c : Char) (s : String) : List String :=
  splitChAux c s.data

/-- `Array.prototype.join(c)` for a single-character separator. -/
def joinCh (c : Char) : List String → String
  | [] => ""
  | [x] => x
  | x :: y :: t => x ++ String.mk [c] ++ joinCh c (y :: t)

/-! ### The account node (src/src/types/api.ts, first revision)

`LedgerAccount` from `types/api.ts`: `account`, `amount`, `clearedAmount`,
`lastClearedDate`, `children`, `fullPath`.  Amounts are modelled as exact
integers. -/

structure LedgerAccount where
  account : String
  amount : Int
  clearedAmount : Int
  lastClearedDate : String
  children : List LedgerAccount
  fullPath : String
deriving Repr

mutual
def nodeBEq : LedgerAccount → LedgerAccount → Bool
  | ⟨a1, a2, a3, a4, a5, a6⟩, ⟨b1, b2, b3, b4, b5, b6⟩ =>
    a1 == b1 && a2 == b2 && a3 == b3 && a4 == b4 && nodeListBEq a5 b5 && a6 == b6
def nodeListBEq : List LedgerAccount → List LedgerAccount → Bool
  | [], [] => true
  | x :: xs, y :: ys => nodeBEq x y && nodeListBEq xs ys
  | _, _ => false
end

/-! ### Tree construction: `buildTreeFromPaths`
(src/src/components/AccountTree.tsx, lines 21-137) -/

/-- `account.fullPath || account.account` (JS: the empty string is falsy). -/
def pathKeyOf (a : LedgerAccount) : String :=
  if a.fullPath = "" then a.account else a.fullPath

/-- The synthesized parent node `{account: name, fullPath: path, amount: 0,
clearedAmount: 0, lastClearedDate: '', children: []}`. -/
def placeholder (name path : String) : LedgerAccount :=
  ⟨name, 0, 0, "", [], path⟩

/-- Insertion-ordered association list modelling a JS `Map<string, LedgerAccount>`. -/
abbrev NodeMap := List (String × LedgerAccount)

def mget : NodeMap → String → Option LedgerAccount
  | [], _ => none
  | e :: m, k => if e.1 == k then some e.2 else mget m k

def mhas (m : NodeMap) (k : String) : Bool :=
  (mget m k).isSome

/-- `Map.prototype.set`: replaces in place if the key exists (keeping its
insertion position), otherwise appends. -/
def mset (m : NodeMap) (k : String) (v : LedgerAccount) : NodeMap :=
  if mhas m k then m.map (fun e => if e.1 == k then (k, v) else e)
  else m ++ [(k, v)]

/-- `currentPath = currentPath ? currentPath + ':' + parts[i] : parts[i]`
(the empty accumulated path is falsy). -/
def jsAcc (cur p : String) : String :=
  if cur = "" then p else cur ++ ":" ++ p

/-- The `for (let i = 0; i < parts.length - 1; i++)` placeholder-creation
loop: `cur` is the accumulated `currentPath` (initially `''`). -/
def addParents (m : NodeMap) (cur : String) : List String → NodeMap
  | [] => m
  | p :: rest =>
    let cur2 := jsAcc cur p
    let m2 := if mhas m cur2 then m else mset m cur2 (placeholder p cur2)
    addParents m2 cur2 rest

/-- One iteration of the first pass: create missing parent placeholders for
every strict prefix of the account's path, then insert the authoritative
node itself with `children: []`. -/
def phase1Step (m : NodeMap) (a : LedgerAccount) : NodeMap :=
  mset (addParents m "" ((splitCh ':' (pathKeyOf a)).dropLast))
    (pathKeyOf a) { a with children := [] }

/-- First pass of `buildTreeFromPaths` over the whole input list. -/
def phase1 (accounts : List LedgerAccount) : NodeMap :=
  accounts.foldl phase1Step []

def segsOf (k : String) : Nat := (splitCh ':' k).length

def isRootKey (k : String) : Bool := segsOf k == 1

/-- `parts.slice(0, -1).join(':')`. -/
def parentKey (k : String) : String := joinCh ':' ((splitCh ':' k).dropLast)

def maxSegs (m : NodeMap) : Nat :=
  (m.map (fun e => segsOf e.1)).foldr max 0

/-- Second pass: `nodeMap.forEach` appends every non-root node to its
parent's `children` (in map insertion order).  Mutation is modelled by
recursively expanding each entry; `fuel` bounds the depth and any value
`≥ maxSegs m` reproduces the mutated fixpoint because a child key always
has exactly one more `:`-segment than its parent key. -/
def expandEntry (m : NodeMap) : Nat → String → LedgerAccount → LedgerAccount
  | 0, _, n => n
  | fuel + 1, p, n =>
    { n with children :=
        m.filterMap (fun e =>
          if !isRootKey e.1 && parentKey e.1 == p && mhas m (parentKey e.1) then
            some (expandEntry m fuel e.1 e.2)
          else none) }

/-- The forest after the two construction passes (before aggregation). -/
def buildForestRaw (m : NodeMap) : List LedgerAccount :=
  m.filterMap (fun e =>
    if isRootKey e.1 then some (expandEntry m (maxSegs m) e.1 e.2) else none)

/-! ### Aggregation: `calculateParentAmounts` / `calculateParentClearedAmounts`
(AccountTree.tsx lines 74-95 and 98-119)

The JS function recurses into the children, then keeps the node's own
`amount` when `accounts.find` locates the node in the original input, and
otherwise overwrites it with the children's sum.  Its return value always
equals the node's post-pass `amount`, so `childrenSum` below is the sum of
the aggregated children's amounts. -/

def isAuth (keys : List String) (n : LedgerAccount) : Bool :=
  keys.contains (pathKeyOf n)

def sumAmounts (cs : List LedgerAccount) : Int :=
  (cs.map (fun c => c.amount)).sum

def sumCleared (cs : List LedgerAccount) : Int :=
  (cs.map (fun c => c.clearedAmount)).sum

mutual
def aggNode (keys : List String) : LedgerAccount → LedgerAccount
  | ⟨ac, am, cl, ld, cs, fp⟩ =>
    if cs.isEmpty then ⟨ac, am, cl, ld, cs, fp⟩
    else
      let cs2 := aggList keys cs
      if isAuth keys ⟨ac, am, cl, ld, cs, fp⟩ then ⟨ac, am, cl, ld, cs2, fp⟩
      else ⟨ac, sumAmounts cs2, cl, ld, cs2, fp⟩
def aggList (keys : List String) : List LedgerAccount → List LedgerAccount
  | [] => []
  | n :: ns => aggNode keys n :: aggList keys ns
end

mutual
def aggClearedNode (keys : List String) : LedgerAccount → LedgerAccount
  | ⟨ac, am, cl, ld, cs, fp⟩ =>
    if cs.isEmpty then ⟨ac, am, cl, ld, cs, fp⟩
    else
      let cs2 := aggClearedList keys cs
      if isAuth keys ⟨ac, am, cl, ld, cs, fp⟩ then ⟨ac, am, cl, ld, cs2, fp⟩
      else ⟨ac, am, sumCleared cs2, ld, cs2, fp⟩
def aggClearedList (keys : List String) : List LedgerAccount → List LedgerAccount
  | [] => []
  | n :: ns => aggClearedNode keys n :: aggClearedList keys ns
end

/-! ### String comparison and sorting

`String.prototype.localeCompare` with no arguments uses the host default
collation: primary strength compares accent-stripped, case-folded letters;
ties are broken deterministically on the raw code points.  We model exactly
that for the Latin-1 repertoire ledger account names use. -/

/-- Strip the combining accent of a precomposed Latin letter (the effect of
`normalize('NFD').replace(/\p{Diacritic}/gu, '')` on such letters). -/
def deaccentChar (c : Char) : Char :=
  if c = 'á' ∨ c = 'à' ∨ c = 'â' ∨ c = 'ã' ∨ c = 'ä' then 'a'
  else if c = 'Á' ∨ c = 'À' ∨ c = 'Â' ∨ c = 'Ã' ∨ c = 'Ä' then 'A'
  else if c = 'é' ∨ c = 'è' ∨ c = 'ê' ∨ c = 'ë' then 'e'
  else if c = 'É' ∨ c = 'È' ∨ c = 'Ê' ∨ c = 'Ë' then 'E'
  else if c = 'í' ∨ c = 'ì' ∨ c = 'î' ∨ c = 'ï' then 'i'
  else if c = 'Í' ∨ c = 'Ì' ∨ c = 'Î' ∨ c = 'Ï' then 'I'
  else if c = 'ó' ∨ c = 'ò' ∨ c = 'ô' ∨ c = 'õ' ∨ c = 'ö' then 'o'
  else if c = 'Ó' ∨ c = 'Ò' ∨ c = 'Ô' ∨ c = 'Õ' ∨ c = 'Ö' then 'O'
  else if c = 'ú' ∨ c = 'ù' ∨ c = 'û' ∨ c = 'ü' then 'u'
  else if c = 'Ú' ∨ c = 'Ù' ∨ c = 'Û' ∨ c = 'Ü' then 'U'
  else if c = 'ç' then 'c'
  else if c = 'Ç' then 'C'
  else c

/-- Lower-case a basic Latin letter. -/
def lowerChar (c : Char) : Char :=
  if 'A' ≤ c ∧ c ≤ 'Z' then Char.ofNat (c.toNat + 32) else c

/-- `norm` of the multi-currency AccountTree revision (line 413):
`s.normalize('NFD').replace(/\p{Diacritic}/gu, '').toLowerCase()`. -/
def normName (s : String) : String :=
  String.mk (s.data.map (fun c => lowerChar (deaccentChar c)))

/-- Code-point comparison of character lists. -/
def cmpChars : List Char → List Char → Int
  | [], [] => 0
  | [], _ :: _ => -1
  | _ :: _, [] => 1
  | x :: xs, y :: ys =>
    if x.toNat < y.toNat then -1
    else if y.toNat < x.toNat then 1
    else cmpChars xs ys

/-- Model of `a.localeCompare(b)`: accent- and case-insensitive primary
comparison, raw code points as the deterministic tie-break. -/
def localeCompare (a b : String) : Int :=
  let pa := (normName a).data
  let pb := (normName b).data
  let primary := cmpChars pa pb
  if primary = 0 then cmpChars a.data b.data else primary

/-- Stable insertion into a sorted list: the new element goes in front of
the first element it compares `le` to. -/
def insertLe (le : α → α → Bool) (x : α) : List α → List α
  | [] => [x]
  | y :: ys => if le x y then x :: y :: ys else y :: insertLe le x ys

/-- Model of `Array.prototype.sort(cmp)` for a consistent comparator: since
ES2019 the sort is stable, and a stable sort w.r.t. a total preorder has a
unique result, so stable insertion sort reproduces it.  `le x y` stands for
`cmp(x, y) <= 0`. -/
def jsSortBy (le : α → α → Bool) : List α → List α
  | [] => []
  | x :: xs => insertLe le x (jsSortBy le xs)

/-- `(a, b) => a.account.localeCompare(b.account)` as a `le` predicate. -/
def leLoc (a b : LedgerAccount) : Bool :=
  localeCompare a.account b.account ≤ 0

/-! `sortChildren` of `buildTreeFromPaths` (lines 126-134) sorts the
children of every node by `account.localeCompare`. -/
mutual
def sortNodeRec : LedgerAccount → LedgerAccount
  | ⟨ac, am, cl, ld, cs, fp⟩ => ⟨ac, am, cl, ld, jsSortBy leLoc (sortListRec cs), fp⟩
def sortListRec : List LedgerAccount → List LedgerAccount
  | [] => []
  | n :: ns => sortNodeRec n :: sortListRec ns
end

/-- `buildTreeFromPaths` (AccountTree.tsx lines 21-137): build the node map,
attach children, aggregate amounts then cleared amounts, and sort every
sibling list (children first, then the roots). -/
def buildTreeFromPaths (accounts : List LedgerAccount) : List LedgerAccount :=
  let m := phase1 accounts
  let keys := accounts.map pathKeyOf
  let t0 := buildForestRaw m
  let t1 := t0.map (aggNode keys)
  let t2 := t1.map (aggClearedNode keys)
  let t3 := t2.map sortNodeRec
  jsSortBy leLoc t3

/-- `accounts.some(acc => acc.children && acc.children.length > 0)`
(AccountTree.tsx lines 325-333). -/
def isTreeInput (accounts : List LedgerAccount) : Bool :=
  accounts.any (fun a => !a.children.isEmpty)

/-- The `treeAccounts` normalizer of the `AccountTree` component: an input
that already carries children is passed through, a flat list is rebuilt. -/
def treeAccounts (accounts : List LedgerAccount) : List LedgerAccount :=
  if isTreeInput accounts then accounts else buildTreeFromPaths accounts

/-! ### Observation helpers (not part of the source; used to state claims) -/

mutual
def allNodes : LedgerAccount → List LedgerAccount
  | ⟨ac, am, cl, ld, cs, fp⟩ => ⟨ac, am, cl, ld, cs, fp⟩ :: allNodesL cs
def allNodesL : List LedgerAccount → List LedgerAccount
  | [] => []
  | n :: ns => allNodes n ++ allNodesL ns
end

def allNodesF (ts : List LedgerAccount) : List LedgerAccount :=
  allNodesL ts

mutual
def leafSum : LedgerAccount → Int
  | ⟨_, am, _, _, cs, _⟩ => if cs.isEmpty then am else leafSumL cs
def leafSumL : List LedgerAccount → Int
  | [] => 0
  | n :: ns => leafSum n + leafSumL ns
end

/-! `leafSumInvB` is the property claimed for normalize-then-aggregate:
every interior node carries the sum of its descendant leaves' amounts. -/
mutual
def leafSumInvB : LedgerAccount → Bool
  | ⟨ac, am, cl, ld, cs, fp⟩ =>
    (cs.isEmpty || (am == leafSum ⟨ac, am, cl, ld, cs, fp⟩)) && leafSumInvLB cs
def leafSumInvLB : List LedgerAccount → Bool
  | [] => true
  | n :: ns => leafSumInvB n && leafSumInvLB ns
end

/-- Adjacent-pair check: the sibling lists we inspect are "sorted" when
every adjacent pair satisfies the comparator. -/
def chainB (le : α → α → Bool) : List α → Bool
  | [] => true
  | [_] => true
  | x :: y :: t => le x y && chainB le (y :: t)

/-! ### The Liquido-last comparator (multi-currency AccountTree revision,
lines 564-590): `liquido` (accent-stripped, case-folded) sorts after any
other sibling, otherwise `localeCompare` decides. -/

def liqCmpStr (x y : String) : Int :=
  let xl := normName x == "liquido"
  let yl := normName y == "liquido"
  if xl && !yl then 1
  else if !xl && yl then -1
  else localeCompare x y

def liqRank (x : String) : Nat := if normName x == "liquido" then 1 else 0

/-- The five scalar fields of a node (everything except `children`). -/
def eqScalars (x y : LedgerAccount) : Prop :=
  x.account = y.account ∧ x.amount = y.amount ∧ x.clearedAmount = y.clearedAmount ∧
  x.lastClearedDate = y.lastClearedDate ∧ x.fullPath = y.fullPath

/-! ### The synthesized-node amount invariant through the pipeline -/

/-- What aggregation guarantees for nodes absent from the authoritative
input: their amount is the sum of their children's amounts. -/
def Qamt (keys : List String) (x : LedgerAccount) : Prop :=
  isAuth keys x = false → x.amount = sumAmounts x.children

/-! ### The authoritative-scalars invariant through the pipeline -/

/-- Every node whose path key names an authoritative input account carries
exactly that account's scalar fields. -/
def Pauth (accounts : List LedgerAccount) (x : LedgerAccount) : Prop :=
  ∀ a ∈ accounts, pathKeyOf x = pathKeyOf a → eqScalars x a

/-! ### Path-segment accounting -/

def headSeg (k : String) : String := ((splitCh ':' k).head?).getD ""

/-- Every entry of the node map is either an authoritative insert (the
original account with its children reset) or a synthesized placeholder. -/
def entryShape (univ : List LedgerAccount) (e : String × LedgerAccount) : Prop :=
  (∃ a ∈ univ, e = (pathKeyOf a, { a with children := [] })) ∨
  (∃ nm p, e = (p, placeholder nm p) ∧ pathKeyOf (placeholder nm p) = p)

/-! ### Sortedness of the output sibling lists -/

mutual
def locSortedB : LedgerAccount → Bool
  | ⟨_, _, _, _, cs, _⟩ => chainB leLoc cs && locSortedLB cs
def locSortedLB : List LedgerAccount → Bool
  | [] => true
  | n :: ns => locSortedB n && locSortedLB ns
end

def locSortedForestB (ts : List LedgerAccount) : Bool :=
  chainB leLoc ts && locSortedLB ts

/-- The comparator of the multi-currency revision applied to tree nodes:
`liquido` sorts last, otherwise `localeCompare`. -/
def leLiqLA (a b : LedgerAccount) : Bool :=
  liqCmpStr a.account b.account ≤ 0

/-! `liqSortedForestB` states the sibling-order property claimed by the
spec: every sibling list ascending by locale comparison with accent-stripped
`liquido` last. -/
mutual
def liqSortedB : LedgerAccount → Bool
  | ⟨_, _, _, _, cs, _⟩ => chainB leLiqLA cs && liqSortedLB cs
def liqSortedLB : List LedgerAccount → Bool
  | [] => true
  | n :: ns => liqSortedB n && liqSortedLB ns
end

def liqSortedForestB (ts : List LedgerAccount) : Bool :=
  chainB leLiqLA ts && liqSortedLB ts

/-! ### Example inputs -/

/-- `{path: "Despesas:Casa", amount: 100}` (spec §8): an authoritative
interior account. -/
def exCasa : LedgerAccount := ⟨"Casa", 100, 5, "2024-01-01", [], "Despesas:Casa"⟩

/-- `{path: "Despesas:Casa:Luz", amount: 40}` (spec §8). -/
def exLuz : LedgerAccount := ⟨"Luz", 40, 2, "2024-01-02", [], "Despesas:Casa:Luz"⟩

/-- The `Despesas:Casa` node as it appears in
`buildTreeFromPaths [exCasa, exLuz]`. -/
def exCasaOut : LedgerAccount :=
  ⟨"Casa", 100, 5, "2024-01-01", [⟨"Luz", 40, 2, "2024-01-02", [], "Despesas:Casa:Luz"⟩],
    "Despesas:Casa"⟩

/-- `{path: "A:B", amount: 10}` (spec §8). -/
def exAB : LedgerAccount := ⟨"B", 10, 0, "", [], "A:B"⟩

/-- `{path: "A:C", amount: 5}` (spec §8). -/
def exAC : LedgerAccount := ⟨"C", 5, 0, "", [], "A:C"⟩

/-- The synthesized `A` node in `buildTreeFromPaths [exAB, exAC]`. -/
def exAOut : LedgerAccount :=
  ⟨"A", 15, 0, "", [⟨"B", 10, 0, "", [], "A:B"⟩, ⟨"C", 5, 0, "", [], "A:C"⟩], "A"⟩

/-- Sibling named `Liquido` under `X`. -/
def exLiquido : LedgerAccount := ⟨"Liquido", 1, 0, "", [], "X:Liquido"⟩

/-- Sibling named `Z` under `X`. -/
def exZ : LedgerAccount := ⟨"Z", 2, 0, "", [], "X:Z"⟩

/-! ### The multi-currency account shape (src/src/types/api.ts, second
revision): `amounts` is a currency-keyed map of formatted strings, and
`withBigInts` attaches `amountsBigInt` / `clearedAmountsBigInt` maps of
exact `decimal.js` values, modelled as scaled decimals `(m, e) = m / 10^e`. -/

structure Acc2 where
  account : String
  fullPath : String
  amounts : List (String × String)
  amountsBigInt : Option (List (String × (Int × Nat)))
  clearedAmountsBigInt : Option (List (String × (Int × Nat)))
  lastClearedDate : Option String
  children : List Acc2
deriving Repr

/-- The comparator of `sortedAccounts` (multi-currency AccountTree, lines
571-577 and 583-588): accent-stripped case-folded `liquido` sorts last,
otherwise `account.localeCompare`. -/
def leLiq2 (x y : Acc2) : Bool :=
  liqCmpStr x.account y.account ≤ 0

/-! `sortChildren` of the multi-currency revision (lines 565-579): map over
the children recursively, then sort each sibling list with the Liquido-last
comparator.  (`if (!a.children) return a` guards the `undefined` case; a
present-but-empty list sorts to itself, so the guard is behaviourally
invisible in this model.) -/
mutual
def sortChildren2 : Acc2 → Acc2
  | ⟨ac, fp, am, ab, cb, ld, cs⟩ =>
    ⟨ac, fp, am, ab, cb, ld, jsSortBy leLiq2 (sortChildren2L cs)⟩
def sortChildren2L : List Acc2 → List Acc2
  | [] => []
  | n :: ns => sortChildren2 n :: sortChildren2L ns
end

/-- `sortedAccounts` (lines 581-589): `[...accounts].map(sortChildren).sort(cmp)`. -/
def sortedAccountsLiq (accs : List Acc2) : List Acc2 :=
  jsSortBy leLiq2 (sortChildren2L accs)

/-! Sibling-sortedness of an `Acc2` forest w.r.t. the Liquido-last order. -/
mutual
def liqSorted2B : Acc2 → Bool
  | ⟨_, _, _, _, _, _, cs⟩ => chainB leLiq2 cs && liqSorted2LB cs
def liqSorted2LB : List Acc2 → Bool
  | [] => true
  | n :: ns => liqSorted2B n && liqSorted2LB ns
end

def liqSorted2ForestB (ts : List Acc2) : Bool :=
  chainB leLiq2 ts && liqSorted2LB ts

/-! ### Claim C8: the fail-fast `assertHasBig` precondition -/

/-- `assertHasBig` of the four-column multi-currency revision (lines
644-650): throws exactly when `amountsBigInt` is absent. -/
def assertHasBig (acc : Acc2) : Except String Unit :=
  if acc.amountsBigInt.isSome then Except.ok ()
  else Except.error "amountsBigInt is missing. Ensure withBigInts() was applied before rendering."

/-- `assertHasBig` of the five-column revision (lines 387-393): throws when
`amountsBigInt` OR `clearedAmountsBigInt` is absent. -/
def assertHasBigWithCleared (acc : Acc2) : Except String Unit :=
  if acc.amountsBigInt.isSome && acc.clearedAmountsBigInt.isSome then Except.ok ()
  else Except.error "amountsBigInt is missing. Ensure withBigInts() was applied before rendering."

/-- A node with `amountsBigInt` attached but no `clearedAmountsBigInt`. -/
def exAccNoCleared : Acc2 :=
  ⟨"Casa", "Despesas:Casa", [("BRL", "100,00")], some [("BRL", (10000, 2))], none, none, []⟩

/-! ### JS array slicing and decimal digit strings -/

/-- Resolve a JS `Array.prototype.slice` index: negative indices count from
the end (clamped at 0), positive ones are clamped at the length. -/
def jsSliceIdx (len : Nat) (i : Int) : Nat :=
  if i < 0 then len - i.natAbs else min i.toNat len

def jsSlice (l : List α) (a b : Int) : List α :=
  (l.take (jsSliceIdx l.length b)).drop (jsSliceIdx l.length a)

/-- `arr.slice(a)` = `arr.slice(a, arr.length)`. -/
def jsSliceFrom (l : List α) (a : Int) : List α :=
  jsSlice l a (l.length : Int)

def digitChar (d : Nat) : Char := Char.ofNat (48 + d)

/-- Base-10 digits of a natural number (fuel-driven so that it is
structurally recursive; any fuel `> n` yields the digits). -/
def natDigitsAux : Nat → Nat → List Char
  | 0, _ => []
  | fuel + 1, n =>
    if n < 10 then [digitChar n]
    else natDigitsAux fuel (n / 10) ++ [digitChar (n % 10)]

def natDigits (n : Nat) : List Char := natDigitsAux (n + 1) n

/-! ### Expense rows and the Top-N-plus-Others fold
(src/src/components/ExpenseChart.tsx lines 37-57; the identical fold in
src/src/components/ExpensePieChart.tsx lines 57-72 differs only in using
`Decimal` arithmetic — both are modelled here with exact integers). -/

structure ExpenseData where
  account : String
  amount : Int
  isOthers : Bool
deriving Repr, DecidableEq

def processedExpenses (maxItems : Nat) (expenses : List ExpenseData) : List ExpenseData :=
  if expenses.length ≤ maxItems then expenses
  else
    let top := jsSlice expenses 0 ((maxItems : Int) - 1)
    let rest := jsSliceFrom expenses ((maxItems : Int) - 1)
    let othersSum := (rest.map (fun e => e.amount)).sum
    top ++ [⟨"Others (" ++ String.mk (natDigits rest.length) ++ " accounts)",
      othersSum, true⟩]

def exExp1 : ExpenseData := ⟨"Food", 50, false⟩

def exExp2 : ExpenseData := ⟨"Rent", 30, false⟩

def exExpenses12 : List ExpenseData :=
  [⟨"a1", 120, false⟩, ⟨"a2", 110, false⟩, ⟨"a3", 100, false⟩,
   ⟨"a4", 90, false⟩, ⟨"a5", 80, false⟩, ⟨"a6", 70, false⟩,
   ⟨"a7", 60, false⟩, ⟨"a8", 50, false⟩, ⟨"a9", 40, false⟩,
   ⟨"a10", 30, false⟩, ⟨"a11", 20, false⟩, ⟨"a12", 10, false⟩]

/-! ### Month-to-month expense diff rows
(src/src/components/ExpenseDiffChart.tsx lines 53-110). -/

structure ExpenseItem where
  account : String
  amount : Int
deriving Repr, DecidableEq

/-- Insertion-ordered account → accumulated amount map
(`m.set(e.account, (m.get(e.account) || 0) + e.amount)`). -/
def mAdd (m : List (String × Int)) (k : String) (v : Int) : List (String × Int) :=
  if (m.map Prod.fst).contains k then
    m.map (fun e => if e.1 = k then (e.1, e.2 + v) else e)
  else m ++ [(k, v)]

def buildAMap (es : List ExpenseItem) : List (String × Int) :=
  es.foldl (fun m e => mAdd m e.account e.amount) []

def mLookup (m : List (String × Int)) (k : String) : Int :=
  match m.find? (fun e => e.1 = k) with
  | some e => e.2
  | none => 0

structure DiffRow where
  account : String
  a : Int
  b : Int
  diff : Int
  absDiff : Int
  pctChange : Option (Int × Int)
  isOthers : Bool
deriving Repr, DecidableEq

/-- Union of the two maps' key lists in `Set` insertion order. -/
def allAccountsOf (aM bM : List (String × Int)) : List String :=
  aM.map Prod.fst ++ (bM.map Prod.fst).filter (fun k => !((aM.map Prod.fst).contains k))

/-- One per-account row: `pctChange` is kept as the exact pair
`(diff, a)` standing for the float `diff / a` (defined iff `a ≠ 0`). -/
def diffRowOf (aM bM : List (String × Int)) (acc : String) : DiffRow :=
  let av := mLookup aM acc
  let bv := mLookup bM acc
  let d := bv - av
  ⟨acc, av, bv, d, (d.natAbs : Int),
    if av ≠ 0 then some (d, av) else none, false⟩

/-- `r.sort((x, y) => y.absDiff - x.absDiff)`: `x` may precede `y`
iff the comparator is `≤ 0`, i.e. `y.absDiff ≤ x.absDiff`. -/
def leAbsDesc (x y : DiffRow) : Bool := decide (y.absDiff ≤ x.absDiff)

/-- The `reduce` step of the Others fold: accumulate `a`, `b`, `diff`,
then recompute `absDiff` from the updated `diff`. -/
def othersStep (acc cur : DiffRow) : DiffRow :=
  { acc with
    a := acc.a + cur.a
    b := acc.b + cur.b
    diff := acc.diff + cur.diff
    absDiff := ((acc.diff + cur.diff).natAbs : Int) }

def othersInit (restLen : Nat) : DiffRow :=
  ⟨"Others (" ++ String.mk (natDigits restLen) ++ " accounts)", 0, 0, 0, 0, none, true⟩

def diffRows (A B : List ExpenseItem) (maxItems : Nat) : List DiffRow :=
  let aM := buildAMap A
  let bM := buildAMap B
  let sorted := jsSortBy leAbsDesc ((allAccountsOf aM bM).map (diffRowOf aM bM))
  if sorted.length ≤ maxItems then sorted
  else
    let top := jsSlice sorted 0 ((maxItems : Int) - 1)
    let rest := jsSliceFrom sorted ((maxItems : Int) - 1)
    let others := rest.foldl othersStep (othersInit rest.length)
    top ++ [{ others with
      pctChange := if others.a ≠ 0 then some (others.diff, others.a) else none }]

def totalA (rows : List DiffRow) : Int := (rows.map (fun r => r.a)).sum

def totalB (rows : List DiffRow) : Int := (rows.map (fun r => r.b)).sum

/-- Both input account multisets mention exactly the same account names. -/
def sameAccountSetB (A B : List ExpenseItem) : Bool :=
  (A.map (fun e => e.account)).all (fun s => (B.map (fun e => e.account)).contains s) &&
  (B.map (fun e => e.account)).all (fun s => (A.map (fun e => e.account)).contains s)

def exMonthA : List ExpenseItem := [⟨"Food", 100⟩, ⟨"Rent", 50⟩, ⟨"Food", 20⟩]

def exMonthB : List ExpenseItem := [⟨"Rent", 70⟩, ⟨"Food", 90⟩]

/-! ### Exact decimals and the per-commodity formatter
(src/unnamed/part_005). A decimal.js `Decimal` is modelled exactly as a
scaled integer `m / 10 ^ e`; all arithmetic the formatter performs on it
(abs, decimalPlaces, toFixed with ROUND_DOWN) is exact in decimal.js and
is modelled exactly here. -/

/-- Exact decimal number `m / 10 ^ e`. -/
structure Dec where
  m : Int
  e : Nat
deriving Repr, DecidableEq

/-- Value equality of two exact decimals (cross-multiplied). -/
def decEqv (a b : Dec) : Prop := a.m * (10 : Int) ^ b.e = b.m * (10 : Int) ^ a.e

instance (a b : Dec) : Decidable (decEqv a b) := by
  unfold decEqv
  infer_instance

/-- Strip trailing zero scale factors: `decNormAuxN m e` is the canonical
(least-`e`) representation of the non-negative value `m / 10 ^ e`; its
second component is decimal.js `decimalPlaces()`. -/
def decNormAuxN : Nat → Nat → Nat × Nat
  | m, 0 => (m, 0)
  | m, e + 1 => if m % 10 = 0 then decNormAuxN (m / 10) e else (m, e + 1)

/-- The non-breaking space Intl places between a currency affix and the
number. -/
def nbsp : Char := Char.ofNat 160

/-- The separators, affixes, minus sign and grouping sizes
`detectLocalePattern` derives from `Intl.NumberFormat` sample calls
(`pfx`/`sfx` are the source's `prefix`/`suffix`). -/
structure LocalePattern where
  decimalSep : List Char
  groupSep : List Char
  pfx : List Char
  sfx : List Char
  minusSign : List Char
  primaryGroup : Nat
  secondaryGroup : Nat
deriving Repr, DecidableEq

/-- Tabulation of `detectLocalePattern` (src/unnamed/part_005 lines 27-62)
for the (locale, currency) pairs reachable from `RULES`: it samples
`Intl.NumberFormat` and decomposes the output. pt-BR uses "," / "." with
currency symbol + non-breaking space as prefix (a non-ISO code such as
"BTC" is displayed as the code itself); KRW is a zero-decimal currency, so
the decimal-separator probe finds no decimal part and falls back to ".";
the en-US decimal style (the no-rule default) uses "." / "," with no
affix. Both locales group digits 3-and-3. -/
def detectLocalePattern (locale : String) (currency : Option String) : LocalePattern :=
  if locale = "pt-BR" then
    match currency with
    | none => ⟨[','], ['.'], [], [], ['-'], 3, 3⟩
    | some "BRL" => ⟨[','], ['.'], ['R', '$', nbsp], [], ['-'], 3, 3⟩
    | some "USD" => ⟨[','], ['.'], ['U', 'S', '$', nbsp], [], ['-'], 3, 3⟩
    | some "GBP" => ⟨[','], ['.'], ['£', nbsp], [], ['-'], 3, 3⟩
    | some "KRW" => ⟨['.'], ['.'], ['₩', nbsp], [], ['-'], 3, 3⟩
    | some c => ⟨[','], ['.'], c.data ++ [nbsp], [], ['-'], 3, 3⟩
  else ⟨['.'], [','], [], [], ['-'], 3, 3⟩

/-- One entry of the `DecimalFormatRule` table: `maxFraction = none`
stands for `Infinity` (or an absent field — the code treats both as
"no cap"). -/
structure FormatRule where
  locale : Option String
  currency : Option String
  symbol : Option String
  minFraction : Option Nat
  maxFraction : Option Nat
deriving Repr, DecidableEq

def RULES : List (String × FormatRule) :=
  [("BRL", ⟨some "pt-BR", some "BRL", none, some 2, none⟩),
   ("USD", ⟨some "pt-BR", some "USD", none, some 2, none⟩),
   ("BTC", ⟨some "pt-BR", some "BTC", none, some 2, none⟩),
   ("USDT", ⟨some "pt-BR", none, some "USDT", some 2, none⟩),
   ("CET", ⟨some "pt-BR", none, some "CET", some 2, some 2⟩),
   ("GBP", ⟨some "pt-BR", some "GBP", none, some 2, none⟩),
   ("KRW", ⟨some "pt-BR", some "KRW", none, some 2, none⟩),
   ("Loop", ⟨some "pt-BR", none, some "Loop", some 0, some 0⟩),
   ("MUSD", ⟨some "pt-BR", none, some "MUSD", some 2, none⟩)]

def emptyRule : FormatRule := ⟨none, none, none, none, none⟩

/-- `rules[commodity] ?? {}`. -/
def lookupRule (rules : List (String × FormatRule)) (c : String) : FormatRule :=
  match rules.find? (fun p => decide (p.1 = c)) with
  | some p => p.2
  | none => emptyRule

/-- Left-pad a digit string with zeros to width `w` (how `toFixed` prints
a fraction remainder of fewer than `w` digits). -/
def padZeros (w : Nat) (l : List Char) : List Char :=
  List.replicate (w - l.length) '0' ++ l

/-- Drop up to `budget` trailing `'0'` characters, scanning a REVERSED
list from its head. -/
def dropZeros : Nat → List Char → List Char
  | 0, l => l
  | _ + 1, [] => []
  | b + 1, c :: cs => if c = '0' then dropZeros b cs else c :: cs

/-- Lines 110-114: trim trailing zeros from a fraction string but keep at
least `minF` characters (the loop decrements `i` from the end while
`i >= minF` and the character is `'0'`). -/
def trimFrac (minF : Nat) (l : List Char) : List Char :=
  (dropZeros (l.length - minF) l.reverse).reverse

/-- Chunk a digit string from the right into groups of `sec` digits, the
leftmost group possibly smaller — the `while (i > 0)` loop of
`groupInteger` (the `sec = 0` guard is unreachable there: that branch runs
only with `primary >= 1`). -/
def groupChunksF : Nat → Nat → List Char → List (List Char)
  | 0, _, l => [l]
  | fuel + 1, sec, l =>
    if l.length ≤ sec ∨ sec = 0 then [l]
    else groupChunksF fuel sec (l.take (l.length - sec)) ++ [l.drop (l.length - sec)]

def groupChunks (sec : Nat) (l : List Char) : List (List Char) :=
  groupChunksF l.length sec l

def joinSep (sep : List Char) : List (List Char) → List Char
  | [] => []
  | [x] => x
  | x :: y :: rest => x ++ sep ++ joinSep sep (y :: rest)

/-- src/unnamed/part_005 lines 64-77. -/
def groupInteger (intStr : List Char) (primary secondary : Nat) (sep : List Char) : List Char :=
  if primary = 0 ∨ intStr.length ≤ primary then intStr
  else
    joinSep sep (groupChunksF (intStr.length - primary)
        (if secondary = 0 then primary else secondary)
        (intStr.take (intStr.length - primary)) ++
      [intStr.drop (intStr.length - primary)])

/-- The numeric body built by `formatDecimalByCommodity` lines 90-120 for
the absolute value `am / 10 ^ ae`: normalize to learn `decimalPlaces`,
truncate (`toFixed(dpToKeep, ROUND_DOWN)` — `dpToKeep ≤ origDp` always,
so this is integer division), split the `toFixed` string at the dot into
the integer digits and the zero-padded `dpToKeep` fraction digits, trim
trailing fraction zeros down to `minFraction`, re-pad an empty fraction to
`minFraction` zeros, and group the integer part. -/
def formatNumericBody (minF : Nat) (mf : Option Nat) (pat : LocalePattern)
    (am ae : Nat) : List Char :=
  let p := decNormAuxN am ae
  let dp := match mf with
    | some k => min p.2 k
    | none => p.2
  let N := p.1 / 10 ^ (p.2 - dp)
  let intRaw := natDigits (N / 10 ^ dp)
  let frac0 := if dp = 0 then [] else padZeros dp (natDigits (N % 10 ^ dp))
  let frac1 := trimFrac minF frac0
  let frac := if frac1 = [] ∧ 0 < minF then List.replicate minF '0' else frac1
  let groupedInt := groupInteger intRaw pat.primaryGroup pat.secondaryGroup pat.groupSep
  if frac = [] then groupedInt else groupedInt ++ pat.decimalSep ++ frac

/-- src/unnamed/part_005 lines 80-127: body plus sign and affixes
(`pre = r.currency ? prefix : r.symbol ? symbol + " " : ""`). -/
def formatDecimalByCommodity (c : String) (value : Dec)
    (rules : List (String × FormatRule)) : List Char :=
  let r := lookupRule rules c
  let pat := detectLocalePattern (r.locale.getD "en-US") r.currency
  let body := formatNumericBody (r.minFraction.getD 0) r.maxFraction pat
    value.m.natAbs value.e
  let pre := match r.currency with
    | some _ => pat.pfx
    | none =>
      match r.symbol with
      | some s => s.data ++ [' ']
      | none => []
  let post := match r.currency with
    | some _ => pat.sfx
    | none => []
  if value.m < 0 then pat.minusSign ++ pre ++ body ++ post
  else pre ++ body ++ post

/-! ### The amount parser (src/src/App.tsx lines 627-635)
`cleanValue = amountStr.replace(/\./g, '').replace(',', '.')` then
`parseFloat(cleanValue) || 0`. -/

def stripDots (l : List Char) : List Char := l.filter (fun c => c ≠ '.')

/-- `String.replace(',', '.')` replaces only the FIRST comma. -/
def commaToDot : List Char → List Char
  | [] => []
  | c :: cs => if c = ',' then '.' :: cs else c :: commaToDot cs

def isDigitCh (c : Char) : Bool := decide (48 ≤ c.toNat ∧ c.toNat ≤ 57)

/-- JS WhiteSpace as skipped by `parseFloat`: space, tab, LF, CR, VT, FF,
NBSP, BOM (by code point). -/
def isWS (c : Char) : Bool :=
  decide (c.toNat = 32 ∨ c.toNat = 9 ∨ c.toNat = 10 ∨ c.toNat = 13 ∨
    c.toNat = 11 ∨ c.toNat = 12 ∨ c.toNat = 160 ∨ c.toNat = 65279)

def digitsToNat (l : List Char) : Nat :=
  l.foldl (fun a c => 10 * a + (c.toNat - 48)) 0

/-- `parseFloat`: skip leading whitespace, optional sign, longest run of
digits, optionally a dot and a second run of digits; `none` (NaN) when no
digit was consumed. (The exponent clause of `parseFloat` is omitted: no
string reachable here places `e`/`E` after a digit.) The result is exact —
the float rounding of the decimal literal is not modelled, matching the
exact-value reading used throughout. -/
def parseFloatJS (l : List Char) : Option Dec :=
  let l1 := l.dropWhile isWS
  let neg : Bool := l1.head? = some '-'
  let l2 := if l1.head? = some '-' ∨ l1.head? = some '+' then l1.tail else l1
  let ds1 := l2.takeWhile isDigitCh
  let r2 := l2.dropWhile isDigitCh
  let ds2 : List Char := if r2.head? = some '.' then r2.tail.takeWhile isDigitCh else []
  if ds1 = [] ∧ ds2 = [] then none
  else
    some ⟨if neg then -(digitsToNat (ds1 ++ ds2) : Int)
      else (digitsToNat (ds1 ++ ds2) : Int), ds2.length⟩

/-- The string-cleaning core of `parseAmount`: strip every dot, turn the
first comma into a dot, `parseFloat`, and default NaN to 0 (`|| 0`; a
parsed 0 or -0 is also replaced by 0, the same exact value). -/
def parseAmountStr (s : List Char) : Dec :=
  match parseFloatJS (commaToDot (stripDots s)) with
  | some d => d
  | none => ⟨0, 0⟩

/-- The value the formatter actually renders: `am / 10 ^ ae` truncated
(never rounded) to the rule's maximum fraction-digit count. -/
def truncDecN (mf : Option Nat) (am ae : Nat) : Dec :=
  let p := decNormAuxN am ae
  let dp := match mf with
    | some k => min p.2 k
    | none => p.2
  ⟨((p.1 / 10 ^ (p.2 - dp) : Nat) : Int), dp⟩

/-- The value's canonical fraction-digit count fits under the rule's cap. -/
def withinMaxB (mf : Option Nat) (dp : Nat) : Bool :=
  match mf with
  | some k => decide (dp ≤ k)
  | none => true

/-- What the spec's words describe for an unconfigured commodity: all of
the value's own digits (no truncation, no padding), integer part grouped
3-and-3 with "," and fraction after "." (the en-US pattern), no affix, a
leading "-" exactly for negative values. -/
def enUSDefaultFormat (d : Dec) : List Char :=
  let p := decNormAuxN d.m.natAbs d.e
  let intDigits := natDigits (p.1 / 10 ^ p.2)
  let fracDigits := padZeros p.2 (natDigits (p.1 % 10 ^ p.2))
  let body := groupInteger intDigits 3 3 [','] ++
    (if p.2 = 0 then [] else '.' :: fracDigits)
  if d.m < 0 then '-' :: body else body

/-! ## Theorems -/

theorem splitChAux_ne_nil (c : Char) (l : List Char) : splitChAux c l ≠ [] := by
  cases l with
  | nil => simp [splitChAux]
  | cons x xs =>
    simp only [splitChAux]
    split
    · simp
    · match h : splitChAux c xs with
      | [] => simp
      | h' :: t => simp

theorem splitChAux_cons_sep (c : Char) (l : List Char) :
    splitChAux c (c :: l) = "" :: splitChAux c l := by
  simp [splitChAux]

theorem splitChAux_append_clean (c : Char) (d : List Char)
    (hd : ∀ x ∈ d, x ≠ c) (rest : List Char) (h : String) (t : List String)
    (hr : splitChAux c rest = h :: t) :
    splitChAux c (d ++ rest) = String.mk (d ++ h.data) :: t := by
  induction d with
  | nil => simpa using hr
  | cons x xs ih =>
    have hx : x ≠ c := hd x (List.mem_cons_self x xs)
    have ih' := ih (fun y hy => hd y (List.mem_cons_of_mem x hy))
    simp only [List.cons_append, splitChAux, if_neg hx, List.append_eq, ih']

theorem splitCh_joinCh (c : Char) :
    ∀ l : List String, l ≠ [] → (∀ p ∈ l, ∀ x ∈ p.data, x ≠ c) →
      splitCh c (joinCh c l) = l := by
  intro l
  induction l with
  | nil => intro h; exact absurd rfl h
  | cons p rest ih =>
    intro _ hclean
    cases rest with
    | nil =>
      have : splitChAux c (p.data ++ []) = String.mk (p.data ++ "".data) :: [] :=
        splitChAux_append_clean c p.data
          (fun x hx => hclean p (List.mem_cons_self _ _) x hx) [] "" [] rfl
      simpa [splitCh, joinCh] using this
    | cons q t =>
      have hrest : splitCh c (joinCh c (q :: t)) = q :: t :=
        ih (by simp) (fun r hr x hx => hclean r (List.mem_cons_of_mem p hr) x hx)
      have hsep : splitChAux c (c :: (joinCh c (q :: t)).data) =
          "" :: (q :: t) := by
        rw [splitChAux_cons_sep]
        exact congrArg _ hrest
      have := splitChAux_append_clean c p.data
        (fun x hx => hclean p (List.mem_cons_self _ _) x hx)
        (c :: (joinCh c (q :: t)).data) "" (q :: t) hsep
      simpa [splitCh, joinCh, String.data_append] using this

theorem splitChAux_pieces_clean (c : Char) :
    ∀ l : List Char, ∀ p ∈ splitChAux c l, ∀ x ∈ p.data, x ≠ c := by
  intro l
  induction l with
  | nil =>
    intro p hp x hx
    simp [splitChAux] at hp
    subst hp
    simp at hx
  | cons y ys ih =>
    intro p hp x hx
    simp only [splitChAux] at hp
    by_cases hy : y = c
    · rw [if_pos hy] at hp
      rcases List.mem_cons.mp hp with h | h
      · subst h; simp at hx
      · exact ih p h x hx
    · rw [if_neg hy] at hp
      match hsp : splitChAux c ys with
      | [] => exact absurd hsp (splitChAux_ne_nil c ys)
      | h :: t =>
        rw [hsp] at hp
        rcases List.mem_cons.mp hp with he | he
        · subst he
          simp only [String.data] at hx
          rcases List.mem_cons.mp hx with h1 | h1
          · subst h1; exact hy
          · exact ih h (by rw [hsp]; exact List.mem_cons_self _ _) x h1
        · exact ih p (by rw [hsp]; exact List.mem_cons_of_mem h he) x hx

theorem sizeOf_lt_of_mem_children {c n : LedgerAccount}
    (hc : c ∈ n.children) : sizeOf c < sizeOf n := by
  have h1 : sizeOf c < sizeOf n.children := List.sizeOf_lt_of_mem hc
  cases n with
  | mk a b d e f g =>
    simp only [LedgerAccount.mk.sizeOf_spec]
    simp only at h1
    omega

/-- Strong induction over the nested tree structure. -/
theorem node_ind (P : LedgerAccount → Prop)
    (h : ∀ n, (∀ c ∈ n.children, P c) → P n) : ∀ n, P n := by
  intro n
  exact h n (fun c hc => node_ind P h c)
termination_by n => sizeOf n
decreasing_by exact sizeOf_lt_of_mem_children hc

theorem nodeListBEq_iff
    (xs : List LedgerAccount)
    (ih : ∀ x ∈ xs, ∀ b, nodeBEq x b = true ↔ x = b) :
    ∀ ys, nodeListBEq xs ys = true ↔ xs = ys := by
  induction xs with
  | nil => intro ys; cases ys <;> simp [nodeListBEq]
  | cons x xs ihl =>
    intro ys
    cases ys with
    | nil => simp [nodeListBEq]
    | cons y ys =>
      rw [nodeListBEq, Bool.and_eq_true,
        ih x (List.mem_cons_self _ _) y,
        ihl (fun z hz => ih z (List.mem_cons_of_mem _ hz)) ys]
      simp

theorem nodeBEq_iff : ∀ a b, nodeBEq a b = true ↔ a = b := by
  intro a
  induction a using node_ind with
  | _ a iha =>
    intro b
    cases a with
    | mk a1 a2 a3 a4 a5 a6 =>
      cases b with
      | mk b1 b2 b3 b4 b5 b6 =>
        rw [nodeBEq]
        simp only [Bool.and_eq_true, beq_iff_eq,
          nodeListBEq_iff a5 (fun c hc => iha c hc) b5,
          LedgerAccount.mk.injEq]
        tauto

/-! ### Generic facts about the stable sort model -/

theorem insertLe_perm (le : α → α → Bool) (x : α) (l : List α) :
    List.Perm (insertLe le x l) (x :: l) := by
  induction l with
  | nil => simp [insertLe]
  | cons y ys ih =>
    rw [insertLe]
    split
    · exact List.Perm.refl _
    · exact ((ih.cons y).trans (List.Perm.swap x y ys))

theorem jsSortBy_perm (le : α → α → Bool) (l : List α) :
    List.Perm (jsSortBy le l) l := by
  induction l with
  | nil => simp [jsSortBy]
  | cons x xs ih => exact (insertLe_perm le x (jsSortBy le xs)).trans (ih.cons x)

theorem mem_jsSortBy {le : α → α → Bool} {l : List α} {a : α} :
    a ∈ jsSortBy le l ↔ a ∈ l :=
  (jsSortBy_perm le l).mem_iff

theorem pairwise_insertLe (le : α → α → Bool)
    (htot : ∀ a b, le a b || le b a)
    (htrans : ∀ a b c, le a b = true → le b c = true → le a c = true)
    (x : α) (l : List α) (h : l.Pairwise (fun a b => le a b = true)) :
    (insertLe le x l).Pairwise (fun a b => le a b = true) := by
  induction l with
  | nil => simp [insertLe]
  | cons y ys ih =>
    rw [insertLe]
    rcases List.pairwise_cons.mp h with ⟨hy, hys⟩
    split
    · rename_i hxy
      refine List.pairwise_cons.mpr ⟨?_, h⟩
      intro z hz
      rcases List.mem_cons.mp hz with h2 | hz
      · subst h2; exact hxy
      · exact htrans x y z hxy (hy z hz)
    · rename_i hxy
      have hyx : le y x = true := by
        have h1 := htot x y
        rw [Bool.not_eq_true] at hxy
        rw [hxy] at h1
        simpa using h1
      refine List.pairwise_cons.mpr ⟨?_, ih hys⟩
      intro z hz
      rcases List.mem_cons.mp ((insertLe_perm le x ys).mem_iff.mp hz) with h2 | hz
      · subst h2; exact hyx
      · exact hy z hz

theorem pairwise_jsSortBy (le : α → α → Bool)
    (htot : ∀ a b, le a b || le b a)
    (htrans : ∀ a b c, le a b = true → le b c = true → le a c = true)
    (l : List α) : (jsSortBy le l).Pairwise (fun a b => le a b = true) := by
  induction l with
  | nil => simp [jsSortBy]
  | cons x xs ih => exact pairwise_insertLe le htot htrans x _ ih

theorem chainB_of_pairwise (le : α → α → Bool) :
    ∀ l : List α, l.Pairwise (fun a b => le a b = true) → chainB le l = true := by
  intro l
  induction l with
  | nil => intro _; rfl
  | cons x xs ih =>
    intro h
    rcases List.pairwise_cons.mp h with ⟨hx, hxs⟩
    cases xs with
    | nil => rfl
    | cons y ys =>
      rw [chainB, Bool.and_eq_true]
      exact ⟨hx y (List.mem_cons_self _ _), ih hxs⟩

/-! ### Order-theoretic facts about the modelled collation -/

theorem char_toNat_inj {a b : Char} (h : a.toNat = b.toNat) : a = b := by
  have h2 := congrArg Char.ofNat h
  rwa [Char.ofNat_toNat, Char.ofNat_toNat] at h2

theorem cmpChars_eq_zero_iff : ∀ a b : List Char, cmpChars a b = 0 ↔ a = b := by
  intro a
  induction a with
  | nil => intro b; cases b <;> simp [cmpChars]
  | cons x xs ih =>
    intro b
    cases b with
    | nil => simp [cmpChars]
    | cons y ys =>
      rw [cmpChars]
      split_ifs with h1 h2
      · constructor
        · intro h; exact absurd h (by norm_num)
        · intro h
          injection h with he _
          subst he
          omega
      · constructor
        · intro h; exact absurd h (by norm_num)
        · intro h
          injection h with he _
          subst he
          omega
      · have hxy : x = y := char_toNat_inj (by omega)
        subst hxy
        rw [ih ys]
        simp

theorem cmpChars_antisymm : ∀ a b : List Char, cmpChars a b = -cmpChars b a := by
  intro a
  induction a with
  | nil => intro b; cases b <;> simp [cmpChars]
  | cons x xs ih =>
    intro b
    cases b with
    | nil => simp [cmpChars]
    | cons y ys =>
      rw [cmpChars, cmpChars]
      split_ifs with h1 h2 h3 <;> try omega
      exact ih ys

theorem cmpChars_trans_le :
    ∀ a b c : List Char, cmpChars a b ≤ 0 → cmpChars b c ≤ 0 → cmpChars a c ≤ 0 := by
  intro a
  induction a with
  | nil => intro b c _ _; cases c <;> simp [cmpChars]
  | cons x xs ih =>
    intro b c hab hbc
    cases b with
    | nil =>
      rw [cmpChars] at hab; omega
    | cons y ys =>
      cases c with
      | nil => rw [cmpChars] at hbc; omega
      | cons z zs =>
        rw [cmpChars] at hab hbc ⊢
        split_ifs at hab hbc ⊢ with h1 h2 h3 h4 h5 h6 <;> try omega
        all_goals {
          have hxy : x = y := char_toNat_inj (by omega)
          have hyz : y = z := char_toNat_inj (by omega)
          subst hxy hyz
          first
          | omega
          | exact ih ys zs hab hbc }

theorem localeCompare_le_trans (a b c : String)
    (hab : localeCompare a b ≤ 0) (hbc : localeCompare b c ≤ 0) :
    localeCompare a c ≤ 0 := by
  unfold localeCompare at hab hbc ⊢
  by_cases pab : cmpChars (normName a).data (normName b).data = 0
  · have hnab : (normName a).data = (normName b).data := (cmpChars_eq_zero_iff _ _).mp pab
    rw [if_pos pab] at hab
    by_cases pbc : cmpChars (normName b).data (normName c).data = 0
    · have hnbc : (normName b).data = (normName c).data := (cmpChars_eq_zero_iff _ _).mp pbc
      have pac : cmpChars (normName a).data (normName c).data = 0 := by
        rw [hnab, hnbc, cmpChars_eq_zero_iff]
      rw [if_pos pac]
      rw [if_pos pbc] at hbc
      exact cmpChars_trans_le _ _ _ hab hbc
    · rw [if_neg pbc] at hbc
      have pac : cmpChars (normName a).data (normName c).data =
          cmpChars (normName b).data (normName c).data := by rw [hnab]
      rw [if_neg (by rw [pac]; exact pbc), pac]
      exact hbc
  · rw [if_neg pab] at hab
    by_cases pbc : cmpChars (normName b).data (normName c).data = 0
    · have hnbc : (normName b).data = (normName c).data := (cmpChars_eq_zero_iff _ _).mp pbc
      have pac : cmpChars (normName a).data (normName c).data =
          cmpChars (normName a).data (normName b).data := by rw [hnbc]
      rw [if_neg (by rw [pac]; exact pab), pac]
      exact hab
    · rw [if_neg pbc] at hbc
      have hac : cmpChars (normName a).data (normName c).data ≤ 0 :=
        cmpChars_trans_le _ _ _ hab hbc
      by_cases pac : cmpChars (normName a).data (normName c).data = 0
      · have hnac : (normName a).data = (normName c).data := (cmpChars_eq_zero_iff _ _).mp pac
        have h1 : cmpChars (normName b).data (normName c).data =
            -cmpChars (normName a).data (normName b).data := by
          rw [← hnac]; exact cmpChars_antisymm _ _
        omega
      · rw [if_neg pac]; exact hac

theorem localeCompare_le_total (a b : String) :
    localeCompare a b ≤ 0 ∨ localeCompare b a ≤ 0 := by
  unfold localeCompare
  have h1 := cmpChars_antisymm (normName a).data (normName b).data
  have h2 := cmpChars_antisymm a.data b.data
  by_cases pab : cmpChars (normName a).data (normName b).data = 0
  · have pba : cmpChars (normName b).data (normName a).data = 0 := by omega
    rw [if_pos pab, if_pos pba]
    omega
  · have pba : cmpChars (normName b).data (normName a).data ≠ 0 := by omega
    rw [if_neg pab, if_neg pba]
    omega

theorem leLoc_total (a b : LedgerAccount) : leLoc a b || leLoc b a := by
  unfold leLoc
  rcases localeCompare_le_total a.account b.account with h | h <;> simp [h]

theorem leLoc_trans (a b c : LedgerAccount)
    (h1 : leLoc a b = true) (h2 : leLoc b c = true) : leLoc a c = true := by
  unfold leLoc at *
  simp only [decide_eq_true_eq] at *
  exact localeCompare_le_trans _ _ _ h1 h2

theorem liqCmpStr_le_iff (x y : String) :
    liqCmpStr x y ≤ 0 ↔
      (liqRank x < liqRank y ∨ (liqRank x = liqRank y ∧ localeCompare x y ≤ 0)) := by
  unfold liqCmpStr liqRank
  by_cases hx : normName x == "liquido" <;> by_cases hy : normName y == "liquido" <;>
    simp [hx, hy]

theorem liqCmpStr_le_trans (x y z : String)
    (h1 : liqCmpStr x y ≤ 0) (h2 : liqCmpStr y z ≤ 0) : liqCmpStr x z ≤ 0 := by
  rw [liqCmpStr_le_iff] at h1 h2 ⊢
  rcases h1 with h1 | ⟨h1a, h1b⟩
  · rcases h2 with h2 | ⟨h2a, h2b⟩
    · left; omega
    · left; omega
  · rcases h2 with h2 | ⟨h2a, h2b⟩
    · left; omega
    · right; exact ⟨by omega, localeCompare_le_trans _ _ _ h1b h2b⟩

theorem liqCmpStr_le_total (x y : String) :
    liqCmpStr x y ≤ 0 ∨ liqCmpStr y x ≤ 0 := by
  rw [liqCmpStr_le_iff, liqCmpStr_le_iff]
  rcases Nat.lt_trichotomy (liqRank x) (liqRank y) with h | h | h
  · left; left; exact h
  · rcases localeCompare_le_total x y with hl | hl
    · left; right; exact ⟨h, hl⟩
    · right; right; exact ⟨h.symm, hl⟩
  · right; left; exact h

/-! ### Traversal facts -/

theorem allNodes_eq (n : LedgerAccount) :
    allNodes n = n :: allNodesL n.children := by
  cases n
  rw [allNodes]

theorem self_mem_allNodes (n : LedgerAccount) : n ∈ allNodes n := by
  rw [allNodes_eq]; exact List.mem_cons_self _ _

theorem allNodesL_append (l1 l2 : List LedgerAccount) :
    allNodesL (l1 ++ l2) = allNodesL l1 ++ allNodesL l2 := by
  induction l1 with
  | nil => simp [allNodesL]
  | cons n ns ih => rw [List.cons_append, allNodesL, allNodesL, ih, List.append_assoc]

theorem mem_allNodesL_iff {x : LedgerAccount} :
    ∀ {l : List LedgerAccount}, x ∈ allNodesL l ↔ ∃ n ∈ l, x ∈ allNodes n := by
  intro l
  induction l with
  | nil => simp [allNodesL]
  | cons n ns ih =>
    rw [allNodesL, List.mem_append, ih]
    constructor
    · rintro (h | ⟨m, hm, hx⟩)
      · exact ⟨n, List.mem_cons_self _ _, h⟩
      · exact ⟨m, List.mem_cons_of_mem _ hm, hx⟩
    · rintro ⟨m, hm, hx⟩
      rcases List.mem_cons.mp hm with h | h
      · subst h; exact Or.inl hx
      · exact Or.inr ⟨m, h, hx⟩

theorem mem_allNodes_of_child {x c t : LedgerAccount}
    (hc : c ∈ t.children) (hx : x ∈ allNodes c) : x ∈ allNodes t := by
  rw [allNodes_eq]
  exact List.mem_cons_of_mem _ (mem_allNodesL_iff.mpr ⟨c, hc, hx⟩)

theorem mem_allNodes_cases {x t : LedgerAccount} (h : x ∈ allNodes t) :
    x = t ∨ ∃ c ∈ t.children, x ∈ allNodes c := by
  rw [allNodes_eq] at h
  rcases List.mem_cons.mp h with h | h
  · exact Or.inl h
  · exact Or.inr (mem_allNodesL_iff.mp h)

/-! ### Unfolding characterizations of the three per-tree passes -/

theorem aggList_eq_map (keys : List String) :
    ∀ l : List LedgerAccount, aggList keys l = l.map (aggNode keys) := by
  intro l
  induction l with
  | nil => rw [aggList]; rfl
  | cons n ns ih => rw [aggList, ih]; rfl

theorem aggClearedList_eq_map (keys : List String) :
    ∀ l : List LedgerAccount, aggClearedList keys l = l.map (aggClearedNode keys) := by
  intro l
  induction l with
  | nil => rw [aggClearedList]; rfl
  | cons n ns ih => rw [aggClearedList, ih]; rfl

theorem sortListRec_eq_map :
    ∀ l : List LedgerAccount, sortListRec l = l.map sortNodeRec := by
  intro l
  induction l with
  | nil => rw [sortListRec]; rfl
  | cons n ns ih => rw [sortListRec, ih]; rfl

theorem aggNode_eq (keys : List String) (n : LedgerAccount) :
    aggNode keys n =
      if n.children.isEmpty then n
      else if isAuth keys n then { n with children := aggList keys n.children }
      else { n with children := aggList keys n.children,
                    amount := sumAmounts (aggList keys n.children) } := by
  cases n
  rw [aggNode]

theorem aggClearedNode_eq (keys : List String) (n : LedgerAccount) :
    aggClearedNode keys n =
      if n.children.isEmpty then n
      else if isAuth keys n then { n with children := aggClearedList keys n.children }
      else { n with children := aggClearedList keys n.children,
                    clearedAmount := sumCleared (aggClearedList keys n.children) } := by
  cases n
  rw [aggClearedNode]

theorem sortNodeRec_eq (n : LedgerAccount) :
    sortNodeRec n = { n with children := jsSortBy leLoc (sortListRec n.children) } := by
  cases n
  rw [sortNodeRec]

theorem eqScalars_refl (x : LedgerAccount) : eqScalars x x :=
  ⟨rfl, rfl, rfl, rfl, rfl⟩

theorem eqScalars_trans {x y z : LedgerAccount}
    (h1 : eqScalars x y) (h2 : eqScalars y z) : eqScalars x z := by
  obtain ⟨a1, a2, a3, a4, a5⟩ := h1
  obtain ⟨b1, b2, b3, b4, b5⟩ := h2
  exact ⟨a1.trans b1, a2.trans b2, a3.trans b3, a4.trans b4, a5.trans b5⟩

theorem pathKeyOf_eq_of_eqScalars {x y : LedgerAccount} (h : eqScalars x y) :
    pathKeyOf x = pathKeyOf y := by
  obtain ⟨h1, _, _, _, h5⟩ := h
  unfold pathKeyOf
  rw [h1, h5]

theorem aggNode_account (keys : List String) (n : LedgerAccount) :
    (aggNode keys n).account = n.account := by
  rw [aggNode_eq]; split_ifs <;> rfl

theorem aggNode_fullPath (keys : List String) (n : LedgerAccount) :
    (aggNode keys n).fullPath = n.fullPath := by
  rw [aggNode_eq]; split_ifs <;> rfl

theorem aggNode_clearedAmount (keys : List String) (n : LedgerAccount) :
    (aggNode keys n).clearedAmount = n.clearedAmount := by
  rw [aggNode_eq]; split_ifs <;> rfl

theorem aggNode_lastClearedDate (keys : List String) (n : LedgerAccount) :
    (aggNode keys n).lastClearedDate = n.lastClearedDate := by
  rw [aggNode_eq]; split_ifs <;> rfl

theorem pathKeyOf_aggNode (keys : List String) (n : LedgerAccount) :
    pathKeyOf (aggNode keys n) = pathKeyOf n := by
  unfold pathKeyOf
  rw [aggNode_account, aggNode_fullPath]

theorem isAuth_aggNode (keys : List String) (n : LedgerAccount) :
    isAuth keys (aggNode keys n) = isAuth keys n := by
  unfold isAuth
  rw [pathKeyOf_aggNode]

theorem aggNode_amount_of_auth (keys : List String) (n : LedgerAccount)
    (h : isAuth keys n = true) : (aggNode keys n).amount = n.amount := by
  rw [aggNode_eq]
  split_ifs <;> rfl

theorem aggNode_eqScalars_of_auth (keys : List String) (n : LedgerAccount)
    (h : isAuth keys n = true) : eqScalars (aggNode keys n) n :=
  ⟨aggNode_account keys n, aggNode_amount_of_auth keys n h,
   aggNode_clearedAmount keys n, aggNode_lastClearedDate keys n,
   aggNode_fullPath keys n⟩

theorem aggClearedNode_account (keys : List String) (n : LedgerAccount) :
    (aggClearedNode keys n).account = n.account := by
  rw [aggClearedNode_eq]; split_ifs <;> rfl

theorem aggClearedNode_fullPath (keys : List String) (n : LedgerAccount) :
    (aggClearedNode keys n).fullPath = n.fullPath := by
  rw [aggClearedNode_eq]; split_ifs <;> rfl

theorem aggClearedNode_amount (keys : List String) (n : LedgerAccount) :
    (aggClearedNode keys n).amount = n.amount := by
  rw [aggClearedNode_eq]; split_ifs <;> rfl

theorem aggClearedNode_lastClearedDate (keys : List String) (n : LedgerAccount) :
    (aggClearedNode keys n).lastClearedDate = n.lastClearedDate := by
  rw [aggClearedNode_eq]; split_ifs <;> rfl

theorem pathKeyOf_aggClearedNode (keys : List String) (n : LedgerAccount) :
    pathKeyOf (aggClearedNode keys n) = pathKeyOf n := by
  unfold pathKeyOf
  rw [aggClearedNode_account, aggClearedNode_fullPath]

theorem aggClearedNode_cleared_of_auth (keys : List String) (n : LedgerAccount)
    (h : isAuth keys n = true) : (aggClearedNode keys n).clearedAmount = n.clearedAmount := by
  rw [aggClearedNode_eq]
  split_ifs <;> rfl

theorem aggClearedNode_eqScalars_of_auth (keys : List String) (n : LedgerAccount)
    (h : isAuth keys n = true) : eqScalars (aggClearedNode keys n) n :=
  ⟨aggClearedNode_account keys n, aggClearedNode_amount keys n,
   aggClearedNode_cleared_of_auth keys n h, aggClearedNode_lastClearedDate keys n,
   aggClearedNode_fullPath keys n⟩

theorem sortNodeRec_eqScalars (n : LedgerAccount) : eqScalars (sortNodeRec n) n := by
  rw [sortNodeRec_eq]
  exact ⟨rfl, rfl, rfl, rfl, rfl⟩

theorem pathKeyOf_sortNodeRec (n : LedgerAccount) :
    pathKeyOf (sortNodeRec n) = pathKeyOf n :=
  pathKeyOf_eq_of_eqScalars (sortNodeRec_eqScalars n)

/-! ### Origin and image lemmas: each per-tree pass maps the node set of the
input tree onto the node set of the output tree. -/

theorem mem_allNodes_aggNode_origin (keys : List String) :
    ∀ t, ∀ x ∈ allNodes (aggNode keys t), ∃ m ∈ allNodes t, x = aggNode keys m := by
  intro t
  induction t using node_ind with
  | _ t ih =>
    intro x hx
    rcases mem_allNodes_cases hx with h | ⟨c, hc, hxc⟩
    · exact ⟨t, self_mem_allNodes t, h⟩
    · rw [aggNode_eq] at hc
      split_ifs at hc with h1 h2
      · rw [List.isEmpty_iff.mp h1] at hc
        simp at hc
      · simp only [List.mem_map, aggList_eq_map] at hc
        obtain ⟨c0, hc0, rfl⟩ := hc
        obtain ⟨m, hm, rfl⟩ := ih c0 hc0 x hxc
        exact ⟨m, mem_allNodes_of_child hc0 hm, rfl⟩
      · simp only [List.mem_map, aggList_eq_map] at hc
        obtain ⟨c0, hc0, rfl⟩ := hc
        obtain ⟨m, hm, rfl⟩ := ih c0 hc0 x hxc
        exact ⟨m, mem_allNodes_of_child hc0 hm, rfl⟩

theorem mem_allNodes_aggNode_image (keys : List String) :
    ∀ t, ∀ m ∈ allNodes t, aggNode keys m ∈ allNodes (aggNode keys t) := by
  intro t
  induction t using node_ind with
  | _ t ih =>
    intro m hm
    rcases mem_allNodes_cases hm with h | ⟨c, hc, hmc⟩
    · subst h; exact self_mem_allNodes _
    · have hchild : aggNode keys c ∈ (aggNode keys t).children := by
        rw [aggNode_eq]
        have hne : ¬t.children.isEmpty := by
          intro habs
          rw [List.isEmpty_iff.mp habs] at hc
          simp at hc
        rw [if_neg hne]
        split_ifs
        · simp only [aggList_eq_map]
          exact List.mem_map_of_mem _ hc
        · simp only [aggList_eq_map]
          exact List.mem_map_of_mem _ hc
      exact mem_allNodes_of_child hchild (ih c hc m hmc)

theorem mem_allNodes_aggClearedNode_origin (keys : List String) :
    ∀ t, ∀ x ∈ allNodes (aggClearedNode keys t),
      ∃ m ∈ allNodes t, x = aggClearedNode keys m := by
  intro t
  induction t using node_ind with
  | _ t ih =>
    intro x hx
    rcases mem_allNodes_cases hx with h | ⟨c, hc, hxc⟩
    · exact ⟨t, self_mem_allNodes t, h⟩
    · rw [aggClearedNode_eq] at hc
      split_ifs at hc with h1 h2
      · rw [List.isEmpty_iff.mp h1] at hc
        simp at hc
      · simp only [List.mem_map, aggClearedList_eq_map] at hc
        obtain ⟨c0, hc0, rfl⟩ := hc
        obtain ⟨m, hm, rfl⟩ := ih c0 hc0 x hxc
        exact ⟨m, mem_allNodes_of_child hc0 hm, rfl⟩
      · simp only [List.mem_map, aggClearedList_eq_map] at hc
        obtain ⟨c0, hc0, rfl⟩ := hc
        obtain ⟨m, hm, rfl⟩ := ih c0 hc0 x hxc
        exact ⟨m, mem_allNodes_of_child hc0 hm, rfl⟩

theorem mem_allNodes_aggClearedNode_image (keys : List String) :
    ∀ t, ∀ m ∈ allNodes t, aggClearedNode keys m ∈ allNodes (aggClearedNode keys t) := by
  intro t
  induction t using node_ind with
  | _ t ih =>
    intro m hm
    rcases mem_allNodes_cases hm with h | ⟨c, hc, hmc⟩
    · subst h; exact self_mem_allNodes _
    · have hchild : aggClearedNode keys c ∈ (aggClearedNode keys t).children := by
        rw [aggClearedNode_eq]
        have hne : ¬t.children.isEmpty := by
          intro habs
          rw [List.isEmpty_iff.mp habs] at hc
          simp at hc
        rw [if_neg hne]
        split_ifs
        · simp only [aggClearedList_eq_map]
          exact List.mem_map_of_mem _ hc
        · simp only [aggClearedList_eq_map]
          exact List.mem_map_of_mem _ hc
      exact mem_allNodes_of_child hchild (ih c hc m hmc)

theorem mem_allNodes_sortNodeRec_origin :
    ∀ t, ∀ x ∈ allNodes (sortNodeRec t), ∃ m ∈ allNodes t, x = sortNodeRec m := by
  intro t
  induction t using node_ind with
  | _ t ih =>
    intro x hx
    rcases mem_allNodes_cases hx with h | ⟨c, hc, hxc⟩
    · exact ⟨t, self_mem_allNodes t, h⟩
    · rw [sortNodeRec_eq] at hc
      simp only at hc
      have hc2 : c ∈ sortListRec t.children := mem_jsSortBy.mp hc
      rw [sortListRec_eq_map] at hc2
      obtain ⟨c0, hc0, rfl⟩ := List.mem_map.mp hc2
      obtain ⟨m, hm, rfl⟩ := ih c0 hc0 x hxc
      exact ⟨m, mem_allNodes_of_child hc0 hm, rfl⟩

theorem mem_allNodes_sortNodeRec_image :
    ∀ t, ∀ m ∈ allNodes t, sortNodeRec m ∈ allNodes (sortNodeRec t) := by
  intro t
  induction t using node_ind with
  | _ t ih =>
    intro m hm
    rcases mem_allNodes_cases hm with h | ⟨c, hc, hmc⟩
    · subst h; exact self_mem_allNodes _
    · have hchild : sortNodeRec c ∈ (sortNodeRec t).children := by
        rw [sortNodeRec_eq]
        simp only
        rw [mem_jsSortBy, sortListRec_eq_map]
        exact List.mem_map_of_mem _ hc
      exact mem_allNodes_of_child hchild (ih c hc m hmc)

/-! ### Sum preservation -/

theorem sumAmounts_perm {l1 l2 : List LedgerAccount} (h : List.Perm l1 l2) :
    sumAmounts l1 = sumAmounts l2 := by
  unfold sumAmounts
  exact (h.map (fun c => c.amount)).sum_eq

theorem sumAmounts_aggClearedList (keys : List String) (l : List LedgerAccount) :
    sumAmounts (aggClearedList keys l) = sumAmounts l := by
  rw [aggClearedList_eq_map]
  unfold sumAmounts
  rw [List.map_map]
  congr 1
  apply List.map_congr_left
  intro c _
  exact aggClearedNode_amount keys c

theorem sumAmounts_children_aggClearedNode (keys : List String) (m : LedgerAccount) :
    sumAmounts (aggClearedNode keys m).children = sumAmounts m.children := by
  rw [aggClearedNode_eq]
  split_ifs
  · rfl
  · exact sumAmounts_aggClearedList keys m.children
  · exact sumAmounts_aggClearedList keys m.children

theorem sumAmounts_sortListRec (l : List LedgerAccount) :
    sumAmounts (sortListRec l) = sumAmounts l := by
  rw [sortListRec_eq_map]
  unfold sumAmounts
  rw [List.map_map]
  congr 1
  apply List.map_congr_left
  intro c _
  exact (sortNodeRec_eqScalars c).2.1

theorem sumAmounts_children_sortNodeRec (m : LedgerAccount) :
    sumAmounts (sortNodeRec m).children = sumAmounts m.children := by
  rw [sortNodeRec_eq]
  simp only
  rw [sumAmounts_perm (jsSortBy_perm leLoc (sortListRec m.children))]
  exact sumAmounts_sortListRec m.children

theorem Q_agg (keys : List String) :
    ∀ t, (∀ m ∈ allNodes t, isAuth keys m = false → m.amount = 0) →
      ∀ x ∈ allNodes (aggNode keys t), Qamt keys x := by
  intro t
  induction t using node_ind with
  | _ t ih =>
    intro h0 x hx
    rcases mem_allNodes_cases hx with h | ⟨c, hc, hxc⟩
    · subst h
      intro hauth
      rw [isAuth_aggNode] at hauth
      rw [aggNode_eq]
      split_ifs with h1 h2
      · rw [List.isEmpty_iff.mp h1]
        have hz := h0 t (self_mem_allNodes t) hauth
        simpa [sumAmounts] using hz
      · rw [hauth] at h2
        exact absurd h2 (by simp)
      · rfl
    · rw [aggNode_eq] at hc
      split_ifs at hc with h1 h2
      · rw [List.isEmpty_iff.mp h1] at hc
        simp at hc
      · simp only [aggList_eq_map, List.mem_map] at hc
        obtain ⟨c0, hc0, rfl⟩ := hc
        exact ih c0 hc0
          (fun m hm hf => h0 m (mem_allNodes_of_child hc0 hm) hf) x hxc
      · simp only [aggList_eq_map, List.mem_map] at hc
        obtain ⟨c0, hc0, rfl⟩ := hc
        exact ih c0 hc0
          (fun m hm hf => h0 m (mem_allNodes_of_child hc0 hm) hf) x hxc

theorem Q_cleared (keys : List String) :
    ∀ t, (∀ m ∈ allNodes t, Qamt keys m) →
      ∀ x ∈ allNodes (aggClearedNode keys t), Qamt keys x := by
  intro t h x hx
  obtain ⟨m, hm, rfl⟩ := mem_allNodes_aggClearedNode_origin keys t x hx
  intro hauth
  have hauth' : isAuth keys m = false := by
    unfold isAuth at hauth ⊢
    rwa [pathKeyOf_aggClearedNode] at hauth
  rw [aggClearedNode_amount, sumAmounts_children_aggClearedNode]
  exact h m hm hauth'

theorem Q_sort (keys : List String) :
    ∀ t, (∀ m ∈ allNodes t, Qamt keys m) →
      ∀ x ∈ allNodes (sortNodeRec t), Qamt keys x := by
  intro t h x hx
  obtain ⟨m, hm, rfl⟩ := mem_allNodes_sortNodeRec_origin t x hx
  intro hauth
  have hauth' : isAuth keys m = false := by
    unfold isAuth at hauth ⊢
    rwa [pathKeyOf_sortNodeRec] at hauth
  rw [(sortNodeRec_eqScalars m).2.1, sumAmounts_children_sortNodeRec]
  exact h m hm hauth'

theorem isAuth_of_pathKey {accounts : List LedgerAccount} {x a : LedgerAccount}
    (ha : a ∈ accounts) (hk : pathKeyOf x = pathKeyOf a) :
    isAuth (accounts.map pathKeyOf) x = true := by
  unfold isAuth
  rw [hk]
  exact List.elem_eq_true_of_mem (List.mem_map_of_mem pathKeyOf ha)

theorem Pa_agg (accounts : List LedgerAccount) :
    ∀ t, (∀ m ∈ allNodes t, Pauth accounts m) →
      ∀ x ∈ allNodes (aggNode (accounts.map pathKeyOf) t), Pauth accounts x := by
  intro t h x hx a ha hk
  obtain ⟨m, hm, rfl⟩ := mem_allNodes_aggNode_origin _ t x hx
  rw [pathKeyOf_aggNode] at hk
  have hauth : isAuth (accounts.map pathKeyOf) m = true := isAuth_of_pathKey ha hk
  exact eqScalars_trans (aggNode_eqScalars_of_auth _ m hauth) (h m hm a ha hk)

theorem Pa_cleared (accounts : List LedgerAccount) :
    ∀ t, (∀ m ∈ allNodes t, Pauth accounts m) →
      ∀ x ∈ allNodes (aggClearedNode (accounts.map pathKeyOf) t), Pauth accounts x := by
  intro t h x hx a ha hk
  obtain ⟨m, hm, rfl⟩ := mem_allNodes_aggClearedNode_origin _ t x hx
  rw [pathKeyOf_aggClearedNode] at hk
  have hauth : isAuth (accounts.map pathKeyOf) m = true := isAuth_of_pathKey ha hk
  exact eqScalars_trans (aggClearedNode_eqScalars_of_auth _ m hauth) (h m hm a ha hk)

theorem Pa_sort (accounts : List LedgerAccount) :
    ∀ t, (∀ m ∈ allNodes t, Pauth accounts m) →
      ∀ x ∈ allNodes (sortNodeRec t), Pauth accounts x := by
  intro t h x hx a ha hk
  obtain ⟨m, hm, rfl⟩ := mem_allNodes_sortNodeRec_origin t x hx
  rw [pathKeyOf_sortNodeRec] at hk
  exact eqScalars_trans (sortNodeRec_eqScalars m) (h m hm a ha hk)

/-! ### More split/join inverses -/

theorem splitChAux_cons_ne (c x : Char) (xs : List Char) (hx : x ≠ c)
    {hd : String} {tl : List String} (h : splitChAux c xs = hd :: tl) :
    splitChAux c (x :: xs) = String.mk (x :: hd.data) :: tl := by
  simp only [splitChAux, if_neg hx, h]

theorem splitChAux_append_sep (c : Char) :
    ∀ l1 l2 : List Char, splitChAux c (l1 ++ c :: l2) = splitChAux c l1 ++ splitChAux c l2 := by
  intro l1 l2
  induction l1 with
  | nil => simp [splitChAux]
  | cons x xs ih =>
    by_cases hx : x = c
    · subst hx
      rw [List.cons_append, splitChAux_cons_sep, splitChAux_cons_sep, ih, List.cons_append]
    · match h : splitChAux c xs with
      | [] => exact absurd h (splitChAux_ne_nil c xs)
      | hd :: tl =>
        have h2 : splitChAux c (xs ++ c :: l2) = hd :: (tl ++ splitChAux c l2) := by
          rw [ih, h, List.cons_append]
        rw [List.cons_append, splitChAux_cons_ne c x _ hx h2,
          splitChAux_cons_ne c x _ hx h, List.cons_append]

theorem splitChAux_clean (c : Char) :
    ∀ l : List Char, (∀ x ∈ l, x ≠ c) → splitChAux c l = [String.mk l] := by
  intro l h
  induction l with
  | nil => rfl
  | cons x xs ih =>
    rw [splitChAux_cons_ne c x xs (h x (List.mem_cons_self _ _))
      (ih (fun y hy => h y (List.mem_cons_of_mem _ hy)))]

theorem joinCh_data_cons_cons (c : Char) (x y : String) (t : List String) :
    (joinCh c (x :: y :: t)).data = x.data ++ c :: (joinCh c (y :: t)).data := by
  rw [joinCh]
  rw [String.data_append, String.data_append]
  simp

theorem joinCh_splitChAux_data (c : Char) :
    ∀ l : List Char, (joinCh c (splitChAux c l)).data = l := by
  intro l
  induction l with
  | nil => rfl
  | cons x xs ih =>
    by_cases hx : x = c
    · subst hx
      match h : splitChAux x xs with
      | [] => exact absurd h (splitChAux_ne_nil x xs)
      | hd :: tl =>
        rw [splitChAux_cons_sep, h, joinCh_data_cons_cons, ← h, ih]
        rfl
    · match h : splitChAux c xs with
      | [] => exact absurd h (splitChAux_ne_nil c xs)
      | hd :: tl =>
        rw [h] at ih
        rw [splitChAux_cons_ne c x xs hx h]
        cases tl with
        | nil =>
          rw [joinCh] at ih
          rw [joinCh]
          show x :: hd.data = x :: xs
          rw [ih]
        | cons y t =>
          rw [joinCh_data_cons_cons] at ih
          rw [joinCh_data_cons_cons]
          show x :: (hd.data ++ c :: (joinCh c (y :: t)).data) = x :: xs
          rw [ih]

theorem string_mk_data (s : String) : String.mk s.data = s := rfl

theorem string_data_inj {a b : String} (h : a.data = b.data) : a = b := by
  have h2 := congrArg String.mk h
  rwa [string_mk_data, string_mk_data] at h2

theorem joinCh_splitCh (c : Char) (s : String) : joinCh c (splitCh c s) = s :=
  string_data_inj (joinCh_splitChAux_data c s.data)

theorem splitCh_append_sep (c : Char) (a b : String) :
    splitCh c (a ++ String.mk [c] ++ b) = splitCh c a ++ splitCh c b := by
  unfold splitCh
  rw [String.data_append, String.data_append]
  have h1 : (String.mk [c]).data = [c] := rfl
  rw [h1, List.append_assoc, List.singleton_append]
  exact splitChAux_append_sep c a.data b.data

theorem splitCh_clean (c : Char) (p : String) (h : ∀ x ∈ p.data, x ≠ c) :
    splitCh c p = [p] := by
  unfold splitCh
  rw [splitChAux_clean c p.data h, string_mk_data]

/-! ### Association-list map lemmas -/

theorem mget_cons (k1 : String) (v1 : LedgerAccount) (m : NodeMap) (k : String) :
    mget ((k1, v1) :: m) k = if k1 == k then some v1 else mget m k := by
  rw [mget]

theorem mget_map_update (k : String) (v : LedgerAccount) :
    ∀ m : NodeMap, mhas m k = true →
      mget (m.map (fun e => if e.1 == k then (k, v) else e)) k = some v := by
  intro m
  induction m with
  | nil => intro h; simp [mhas, mget] at h
  | cons e m ih =>
    intro h
    by_cases he : (e.1 == k) = true
    · rw [List.map_cons, if_pos he, mget_cons]
      simp
    · rw [List.map_cons, if_neg he, mget, if_neg he]
      apply ih
      unfold mhas at h ⊢
      rw [mget, if_neg he] at h
      exact h

theorem mget_map_update_ne (k : String) (v : LedgerAccount) (k' : String) (hne : k' ≠ k) :
    ∀ m : NodeMap,
      mget (m.map (fun e => if e.1 == k then (k, v) else e)) k' = mget m k' := by
  intro m
  induction m with
  | nil => rfl
  | cons e m ih =>
    rw [List.map_cons, mget]
    by_cases he : (e.1 == k) = true
    · rw [if_pos he]
      simp only
      have h1 : (k == k') = false := by
        simp only [beq_eq_false_iff_ne, ne_eq]
        exact fun hc => hne hc.symm
      rw [h1]
      have he1 : e.1 = k := by simpa using he
      rw [mget, show (e.1 == k') = false by rw [he1]; exact h1]
      simp only [Bool.false_eq_true, if_false]
      exact ih
    · rw [if_neg he]
      rw [mget]
      by_cases he' : (e.1 == k') = true
      · rw [if_pos he', if_pos he']
      · rw [if_neg he', if_neg he']
        exact ih

theorem mget_append_not_has (k : String) (v : LedgerAccount) :
    ∀ m : NodeMap, mhas m k = false → mget (m ++ [(k, v)]) k = some v := by
  intro m
  induction m with
  | nil => simp [mget]
  | cons e m ih =>
    intro h
    unfold mhas at h
    rw [mget] at h
    by_cases he : (e.1 == k) = true
    · rw [if_pos he] at h
      simp at h
    · rw [if_neg he] at h
      rw [List.cons_append, mget, if_neg he]
      exact ih h

theorem mget_append_ne (k : String) (v : LedgerAccount) (k' : String) (hne : k' ≠ k) :
    ∀ m : NodeMap, mget (m ++ [(k, v)]) k' = mget m k' := by
  intro m
  induction m with
  | nil =>
    have h1 : (k == k') = false := by
      simp only [beq_eq_false_iff_ne, ne_eq]
      exact fun hc => hne hc.symm
    simp only [List.nil_append, mget, h1]
    rfl
  | cons e m ih =>
    simp only [List.cons_append, mget]
    by_cases he' : (e.1 == k') = true
    · rw [if_pos he', if_pos he']
    · rw [if_neg he', if_neg he']
      exact ih

theorem mget_mset_self (m : NodeMap) (k : String) (v : LedgerAccount) :
    mget (mset m k v) k = some v := by
  unfold mset
  by_cases h : mhas m k = true
  · rw [if_pos h]
    exact mget_map_update k v m h
  · rw [if_neg h]
    exact mget_append_not_has k v m (by simpa using h)

theorem mget_mset_ne (m : NodeMap) (k : String) (v : LedgerAccount)
    (k' : String) (h : k' ≠ k) : mget (mset m k v) k' = mget m k' := by
  unfold mset
  split_ifs with hh
  · exact mget_map_update_ne k v k' h m
  · exact mget_append_ne k v k' h m

theorem mhas_mset_self (m : NodeMap) (k : String) (v : LedgerAccount) :
    mhas (mset m k v) k = true := by
  unfold mhas
  rw [mget_mset_self]
  rfl

theorem mhas_mono_mset (m : NodeMap) (k : String) (v : LedgerAccount)
    (k' : String) (h : mhas m k' = true) : mhas (mset m k v) k' = true := by
  by_cases hk : k' = k
  · subst hk; exact mhas_mset_self m k' v
  · unfold mhas at h ⊢
    rw [mget_mset_ne m k v k' hk]
    exact h

theorem mem_mset {m : NodeMap} {k : String} {v : LedgerAccount} {e : String × LedgerAccount}
    (he : e ∈ mset m k v) : e = (k, v) ∨ e ∈ m := by
  unfold mset at he
  split_ifs at he with hh
  · rcases List.mem_map.mp he with ⟨e0, he0, heq⟩
    by_cases h0 : (e0.1 == k) = true
    · rw [if_pos h0] at heq
      exact Or.inl heq.symm
    · rw [if_neg h0] at heq
      subst heq
      exact Or.inr he0
  · rcases List.mem_append.mp he with h | h
    · exact Or.inr h
    · exact Or.inl (by simpa using h)

theorem mem_of_mget : ∀ {m : NodeMap} {k : String} {v : LedgerAccount},
    mget m k = some v → (k, v) ∈ m := by
  intro m
  induction m with
  | nil => intro k v h; exact absurd h (by simp [mget])
  | cons e m ih =>
    intro k v h
    rw [mget] at h
    by_cases he : (e.1 == k) = true
    · rw [if_pos he] at h
      have h1 : e.1 = k := by simpa using he
      have h2 : e.2 = v := by injection h
      have : e = (k, v) := by
        cases e
        simp only at h1 h2
        rw [h1, h2]
      rw [← this]
      exact List.mem_cons_self _ _
    · rw [if_neg he] at h
      exact List.mem_cons_of_mem _ (ih h)

theorem mhas_false_not_mem_keys : ∀ {m : NodeMap} {k : String},
    mhas m k = false → k ∉ m.map Prod.fst := by
  intro m
  induction m with
  | nil => intro k _ hmem; simp at hmem
  | cons e m ih =>
    intro k h hmem
    unfold mhas at h
    rw [mget] at h
    by_cases he : (e.1 == k) = true
    · rw [if_pos he] at h
      simp at h
    · rw [if_neg he] at h
      rcases List.mem_cons.mp hmem with h1 | h1
      · subst h1
        exact he (by simp)
      · exact ih h h1

theorem keys_mset_of_has (m : NodeMap) (k : String) (v : LedgerAccount)
    (h : mhas m k = true) : (mset m k v).map Prod.fst = m.map Prod.fst := by
  unfold mset
  rw [if_pos h, List.map_map]
  apply List.map_congr_left
  intro e _
  by_cases he : (e.1 == k) = true
  · simp only [Function.comp, if_pos he]
    exact (by simpa using he : e.1 = k).symm
  · simp only [Function.comp, if_neg he]

theorem keys_nodup_mset (m : NodeMap) (k : String) (v : LedgerAccount)
    (h : (m.map Prod.fst).Nodup) : ((mset m k v).map Prod.fst).Nodup := by
  by_cases hh : mhas m k = true
  · rw [keys_mset_of_has m k v hh]
    exact h
  · unfold mset
    rw [if_neg hh, List.map_append]
    rw [List.nodup_append]
    refine ⟨h, by simp, ?_⟩
    intro a ha hb
    simp only [List.map_cons, List.map_nil, List.mem_singleton] at hb
    subst hb
    exact mhas_false_not_mem_keys (by simpa using hh) ha

theorem mget_of_mem_nodup : ∀ {m : NodeMap} {k : String} {v : LedgerAccount},
    (m.map Prod.fst).Nodup → (k, v) ∈ m → mget m k = some v := by
  intro m
  induction m with
  | nil => intro k v _ h; simp at h
  | cons e m ih =>
    intro k v hnd hmem
    rw [List.map_cons, List.nodup_cons] at hnd
    rcases List.mem_cons.mp hmem with h1 | h1
    · subst h1
      rw [mget]
      simp
    · rw [mget]
      have hne : (e.1 == k) = false := by
        simp only [beq_eq_false_iff_ne, ne_eq]
        intro hc
        apply hnd.1
        rw [hc]
        exact List.mem_map_of_mem Prod.fst h1
      rw [hne]
      simp only [Bool.false_eq_true, if_false]
      exact ih hnd.2 h1

theorem segsOf_pos (k : String) : 1 ≤ segsOf k := by
  unfold segsOf splitCh
  exact List.length_pos.mpr (splitChAux_ne_nil ':' k.data)

theorem splitCh_pieces_clean (k : String) :
    ∀ p ∈ splitCh ':' k, ∀ x ∈ p.data, x ≠ ':' :=
  fun p hp x hx => splitChAux_pieces_clean ':' k.data p hp x hx

theorem colon_string_mk : (":" : String) = String.mk [':'] := rfl

theorem string_ne_empty_of_data_ne_nil {s : String} (h : s.data ≠ []) : s ≠ "" := by
  intro he
  subst he
  exact h rfl

theorem append_colon_ne_empty (cur p : String) : cur ++ ":" ++ p ≠ "" := by
  apply string_ne_empty_of_data_ne_nil
  rw [String.data_append, String.data_append]
  simp [colon_string_mk]

theorem jsAcc_empty (p : String) : jsAcc "" p = p := by
  unfold jsAcc
  rw [if_pos rfl]

theorem jsAcc_ne (cur p : String) (h : cur ≠ "") : jsAcc cur p = cur ++ ":" ++ p := by
  unfold jsAcc
  rw [if_neg h]

theorem splitCh_jsAcc (cur p : String) (hcur : cur ≠ "")
    (hp : ∀ x ∈ p.data, x ≠ ':') :
    splitCh ':' (jsAcc cur p) = splitCh ':' cur ++ [p] := by
  rw [jsAcc_ne cur p hcur, colon_string_mk, splitCh_append_sep, splitCh_clean ':' p hp]

theorem parentKey_jsAcc (cur p : String) (hcur : cur ≠ "")
    (hp : ∀ x ∈ p.data, x ≠ ':') : parentKey (jsAcc cur p) = cur := by
  unfold parentKey
  rw [splitCh_jsAcc cur p hcur hp, List.dropLast_concat, joinCh_splitCh]

theorem segsOf_jsAcc (cur p : String) (hcur : cur ≠ "")
    (hp : ∀ x ∈ p.data, x ≠ ':') : segsOf (jsAcc cur p) = segsOf cur + 1 := by
  unfold segsOf
  rw [splitCh_jsAcc cur p hcur hp, List.length_append]
  rfl

theorem segsOf_clean (p : String) (hp : ∀ x ∈ p.data, x ≠ ':') : segsOf p = 1 := by
  unfold segsOf
  rw [splitCh_clean ':' p hp]
  rfl

theorem segsOf_parentKey (k : String) (h : 2 ≤ segsOf k) :
    segsOf (parentKey k) + 1 = segsOf k := by
  unfold parentKey
  have hne : (splitCh ':' k).dropLast ≠ [] := by
    have : (splitCh ':' k).dropLast.length = segsOf k - 1 := by
      rw [List.length_dropLast]; rfl
    intro habs
    rw [habs] at this
    simp at this
    omega
  have hclean : ∀ p ∈ (splitCh ':' k).dropLast, ∀ x ∈ p.data, x ≠ ':' := by
    intro p hp x hx
    have hp2 : p ∈ splitCh ':' k := by
      have h3 := List.dropLast_eq_take (splitCh ':' k) ▸ hp
      exact List.take_subset _ _ h3
    exact splitCh_pieces_clean k p hp2 x hx
  unfold segsOf at h ⊢
  rw [splitCh_joinCh ':' _ hne hclean, List.length_dropLast]
  omega

theorem foldl_jsAcc_eq_joinCh :
    ∀ (t : List String) (cur : String), cur ≠ "" →
      List.foldl jsAcc cur t = joinCh ':' (cur :: t) := by
  intro t
  induction t with
  | nil => intro cur _; rfl
  | cons p t ih =>
    intro cur hcur
    rw [List.foldl_cons, jsAcc_ne cur p hcur,
      ih (cur ++ ":" ++ p) (append_colon_ne_empty cur p)]
    cases t with
    | nil => rw [joinCh, joinCh, joinCh, colon_string_mk]
    | cons q t2 =>
      apply string_data_inj
      rw [joinCh_data_cons_cons, joinCh_data_cons_cons, joinCh_data_cons_cons]
      rw [String.data_append, String.data_append]
      simp [colon_string_mk]

/-! ### `addParents` lemmas -/

theorem addParents_cons (m : NodeMap) (cur p : String) (rest : List String) :
    addParents m cur (p :: rest) =
      addParents
        (if mhas m (jsAcc cur p) then m
         else mset m (jsAcc cur p) (placeholder p (jsAcc cur p)))
        (jsAcc cur p) rest := by
  rw [addParents]

theorem addParents_pres (k : String) (v : LedgerAccount) :
    ∀ (parts : List String) (m : NodeMap) (cur : String),
      mget m k = some v → mget (addParents m cur parts) k = some v := by
  intro parts
  induction parts with
  | nil => intro m cur h; exact h
  | cons p rest ih =>
    intro m cur h
    rw [addParents_cons]
    apply ih
    split_ifs with hh
    · exact h
    · have hk : k ≠ jsAcc cur p := by
        intro habs
        subst habs
        unfold mhas at hh
        rw [h] at hh
        simp at hh
      rw [mget_mset_ne _ _ _ _ hk]
      exact h

theorem addParents_mhas_mono :
    ∀ (parts : List String) (m : NodeMap) (cur k : String),
      mhas m k = true → mhas (addParents m cur parts) k = true := by
  intro parts
  induction parts with
  | nil => intro m cur k h; exact h
  | cons p rest ih =>
    intro m cur k h
    rw [addParents_cons]
    apply ih
    split_ifs with hh
    · exact h
    · exact mhas_mono_mset _ _ _ _ h

theorem addParents_mem :
    ∀ (parts : List String) (m : NodeMap) (cur : String) (e : String × LedgerAccount),
      e ∈ addParents m cur parts →
        e ∈ m ∨ ∃ nm p, e = (p, placeholder nm p) ∧ pathKeyOf (placeholder nm p) = p := by
  intro parts
  induction parts with
  | nil => intro m cur e h; exact Or.inl h
  | cons p rest ih =>
    intro m cur e h
    rw [addParents_cons] at h
    rcases ih _ _ e h with h2 | h2
    · split_ifs at h2 with hh
      · exact Or.inl h2
      · rcases mem_mset h2 with h3 | h3
        · refine Or.inr ⟨p, jsAcc cur p, h3, ?_⟩
          show (if (placeholder p (jsAcc cur p)).fullPath = "" then
              (placeholder p (jsAcc cur p)).account
            else (placeholder p (jsAcc cur p)).fullPath) = jsAcc cur p
          show (if (jsAcc cur p) = "" then p else jsAcc cur p) = jsAcc cur p
          by_cases hc : cur = ""
          · subst hc
            rw [jsAcc_empty]
            split_ifs with he
            · rfl
            · rfl
          · rw [jsAcc_ne cur p hc, if_neg (append_colon_ne_empty cur p)]
        · exact Or.inl h3
    · exact Or.inr h2

theorem addParents_keys_nodup :
    ∀ (parts : List String) (m : NodeMap) (cur : String),
      (m.map Prod.fst).Nodup → ((addParents m cur parts).map Prod.fst).Nodup := by
  intro parts
  induction parts with
  | nil => intro m cur h; exact h
  | cons p rest ih =>
    intro m cur h
    rw [addParents_cons]
    apply ih
    split_ifs with hh
    · exact h
    · exact keys_nodup_mset _ _ _ h

theorem addParents_ensures :
    ∀ (parts : List String) (m : NodeMap) (cur : String), parts ≠ [] →
      mhas (addParents m cur parts) (List.foldl jsAcc cur parts) = true := by
  intro parts
  induction parts with
  | nil => intro m cur h; exact absurd rfl h
  | cons p rest ih =>
    intro m cur _
    rw [addParents_cons, List.foldl_cons]
    cases rest with
    | nil =>
      rw [addParents, List.foldl_nil]
      split_ifs with hh
      · exact hh
      · exact mhas_mset_self _ _ _
    | cons q t =>
      exact ih _ _ (by simp)

/-! ### Invariants of the first construction pass -/

theorem pathKeyOf_resetChildren (a : LedgerAccount) :
    pathKeyOf { a with children := [] } = pathKeyOf a := rfl

theorem phase1Step_eq (m : NodeMap) (a : LedgerAccount) :
    phase1Step m a =
      mset (addParents m "" ((splitCh ':' (pathKeyOf a)).dropLast))
        (pathKeyOf a) { a with children := [] } := rfl

theorem foldl_phase1_pres (k : String) (v : LedgerAccount) :
    ∀ (l : List LedgerAccount) (m : NodeMap), mget m k = some v →
      (∀ b ∈ l, pathKeyOf b ≠ k) → mget (List.foldl phase1Step m l) k = some v := by
  intro l
  induction l with
  | nil => intro m h _; exact h
  | cons b l ih =>
    intro m h hk
    rw [List.foldl_cons]
    apply ih
    · rw [phase1Step_eq]
      rw [mget_mset_ne _ _ _ _ (fun habs => hk b (List.mem_cons_self _ _) habs.symm)]
      exact addParents_pres k v _ m "" h
    · intro b2 hb2
      exact hk b2 (List.mem_cons_of_mem _ hb2)

theorem foldl_phase1_keys_nodup :
    ∀ (l : List LedgerAccount) (m : NodeMap),
      (m.map Prod.fst).Nodup → ((List.foldl phase1Step m l).map Prod.fst).Nodup := by
  intro l
  induction l with
  | nil => intro m h; exact h
  | cons b l ih =>
    intro m h
    rw [List.foldl_cons]
    apply ih
    rw [phase1Step_eq]
    exact keys_nodup_mset _ _ _ (addParents_keys_nodup _ m "" h)

theorem foldl_phase1_shape (univ : List LedgerAccount) :
    ∀ (l : List LedgerAccount) (m : NodeMap),
      (∀ b ∈ l, b ∈ univ) →
      (∀ e ∈ m, entryShape univ e) →
      ∀ e ∈ List.foldl phase1Step m l, entryShape univ e := by
  intro l
  induction l with
  | nil => intro m _ h; exact h
  | cons b l ih =>
    intro m hu h
    rw [List.foldl_cons]
    apply ih
    · intro b2 hb2
      exact hu b2 (List.mem_cons_of_mem _ hb2)
    · intro e he
      rw [phase1Step_eq] at he
      rcases mem_mset he with h1 | h1
      · exact Or.inl ⟨b, hu b (List.mem_cons_self _ _), h1⟩
      · rcases addParents_mem _ m "" e h1 with h2 | h2
        · exact h e h2
        · exact Or.inr h2

theorem phase1_shape (accounts : List LedgerAccount) :
    ∀ e ∈ phase1 accounts, entryShape accounts e := by
  intro e he
  exact foldl_phase1_shape accounts accounts []
    (fun b hb => hb) (fun e he => absurd he (by simp)) e he

theorem phase1_keys_nodup (accounts : List LedgerAccount) :
    ((phase1 accounts).map Prod.fst).Nodup :=
  foldl_phase1_keys_nodup accounts [] (by simp)

theorem phase1_entry_keycoh (accounts : List LedgerAccount) :
    ∀ e ∈ phase1 accounts, pathKeyOf e.2 = e.1 ∧ e.2.children = [] := by
  intro e he
  rcases phase1_shape accounts e he with ⟨a, _, rfl⟩ | ⟨nm, p, rfl, hcoh⟩
  · exact ⟨pathKeyOf_resetChildren a, rfl⟩
  · exact ⟨hcoh, rfl⟩

theorem phase1_nonauth_zero (accounts : List LedgerAccount) :
    ∀ e ∈ phase1 accounts, isAuth (accounts.map pathKeyOf) e.2 = false →
      e.2.amount = 0 ∧ e.2.clearedAmount = 0 := by
  intro e he hf
  rcases phase1_shape accounts e he with ⟨a, ha, rfl⟩ | ⟨nm, p, rfl, _⟩
  · exfalso
    have : isAuth (accounts.map pathKeyOf) { a with children := [] } = true := by
      unfold isAuth
      rw [pathKeyOf_resetChildren]
      exact List.elem_eq_true_of_mem (List.mem_map_of_mem pathKeyOf ha)
    rw [this] at hf
    exact Bool.true_eq_false.mp hf
  · exact ⟨rfl, rfl⟩

theorem phase1_auth_mget (accounts : List LedgerAccount)
    (hnd : (accounts.map pathKeyOf).Nodup) :
    ∀ a ∈ accounts, mget (phase1 accounts) (pathKeyOf a) = some { a with children := [] } := by
  intro a ha
  obtain ⟨l1, l2, rfl⟩ := List.append_of_mem ha
  unfold phase1
  rw [List.foldl_append, List.foldl_cons]
  apply foldl_phase1_pres
  · rw [phase1Step_eq]
    exact mget_mset_self _ _ _
  · intro b hb habs
    rw [List.map_append, List.map_cons] at hnd
    have h1 := (List.nodup_append.mp hnd).2.1
    rw [List.nodup_cons] at h1
    exact h1.1 (habs ▸ List.mem_map_of_mem pathKeyOf hb)

/-! ### Parent closure -/

theorem addParents_closure :
    ∀ (parts : List String) (m : NodeMap) (cur : String),
      (∀ pc ∈ parts, ∀ x ∈ pc.data, x ≠ ':') →
      (cur = "" ∨ mhas m cur = true) →
      (∀ e ∈ m, 2 ≤ segsOf e.1 → mhas m (parentKey e.1) = true) →
      ∀ e ∈ addParents m cur parts, 2 ≤ segsOf e.1 →
        mhas (addParents m cur parts) (parentKey e.1) = true := by
  intro parts
  induction parts with
  | nil => intro m cur _ _ hI; exact hI
  | cons p rest ih =>
    intro m cur hclean hcur hI
    rw [addParents_cons]
    have hpclean : ∀ x ∈ p.data, x ≠ ':' := hclean p (List.mem_cons_self _ _)
    apply ih
    · intro pc hpc
      exact hclean pc (List.mem_cons_of_mem _ hpc)
    · right
      split_ifs with hh
      · exact hh
      · exact mhas_mset_self _ _ _
    · intro e he hseg
      split_ifs at he ⊢ with hh
      · exact hI e he hseg
      · rcases mem_mset he with h1 | h1
        · subst h1
          simp only at hseg ⊢
          have hcur2 : cur ≠ "" := by
            intro habs
            subst habs
            rw [jsAcc_empty] at hseg
            rw [segsOf_clean p hpclean] at hseg
            omega
          rw [parentKey_jsAcc cur p hcur2 hpclean]
          rcases hcur with habs | hcur
          · exact absurd habs hcur2
          · exact mhas_mono_mset _ _ _ _ hcur
        · exact mhas_mono_mset _ _ _ _ (hI e h1 hseg)

theorem foldl_phase1_closure :
    ∀ (l : List LedgerAccount) (m : NodeMap),
      (∀ a ∈ l, headSeg (pathKeyOf a) ≠ "") →
      (∀ e ∈ m, 2 ≤ segsOf e.1 → mhas m (parentKey e.1) = true) →
      ∀ e ∈ List.foldl phase1Step m l, 2 ≤ segsOf e.1 →
        mhas (List.foldl phase1Step m l) (parentKey e.1) = true := by
  intro l
  induction l with
  | nil => intro m _ hI; exact hI
  | cons b l ih =>
    intro m hv hI
    rw [List.foldl_cons]
    apply ih
    · intro a ha
      exact hv a (List.mem_cons_of_mem _ ha)
    · rw [phase1Step_eq]
      have hclean : ∀ pc ∈ (splitCh ':' (pathKeyOf b)).dropLast, ∀ x ∈ pc.data, x ≠ ':' := by
        intro pc hpc x hx
        have hpc2 : pc ∈ splitCh ':' (pathKeyOf b) := by
          have h3 := List.dropLast_eq_take (splitCh ':' (pathKeyOf b)) ▸ hpc
          exact List.take_subset _ _ h3
        exact splitCh_pieces_clean _ pc hpc2 x hx
      have hI2 := addParents_closure ((splitCh ':' (pathKeyOf b)).dropLast) m ""
        hclean (Or.inl rfl) hI
      intro e he hseg
      rcases mem_mset he with h1 | h1
      · subst h1
        unfold segsOf at hseg
        simp only at hseg ⊢
        -- the authoritative entry: its parent key was just ensured by addParents
        match hparts : splitCh ':' (pathKeyOf b) with
        | [] => exact absurd hparts (splitChAux_ne_nil ':' _)
        | [p0] =>
          rw [hparts] at hseg
          simp at hseg
        | p0 :: p1 :: rest =>
          have hp0 : p0 ≠ "" := by
            have h4 := hv b (List.mem_cons_self _ _)
            unfold headSeg at h4
            rw [hparts] at h4
            simpa using h4
          have hne : (p0 :: p1 :: rest).dropLast ≠ [] := by
            rw [List.dropLast_cons₂]; simp
          have hens := addParents_ensures ((p0 :: p1 :: rest).dropLast) m "" hne
          have hfold : List.foldl jsAcc "" ((p0 :: p1 :: rest).dropLast) =
              parentKey (pathKeyOf b) := by
            rw [List.dropLast_cons₂, List.foldl_cons, jsAcc_empty,
              foldl_jsAcc_eq_joinCh _ p0 hp0]
            unfold parentKey
            rw [hparts, List.dropLast_cons₂]
          rw [hfold] at hens
          exact mhas_mono_mset _ _ _ _ hens
      · exact mhas_mono_mset _ _ _ _ (hI2 e h1 hseg)

theorem phase1_closure (accounts : List LedgerAccount)
    (hv : ∀ a ∈ accounts, headSeg (pathKeyOf a) ≠ "") :
    ∀ e ∈ phase1 accounts, 2 ≤ segsOf e.1 →
      mhas (phase1 accounts) (parentKey e.1) = true :=
  foldl_phase1_closure accounts [] hv (fun e he => absurd he (by simp))

/-! ### The raw forest: entry expansion and reachability -/

theorem expandEntry_eqScalars (m : NodeMap) :
    ∀ (fuel : Nat) (k : String) (v : LedgerAccount),
      eqScalars (expandEntry m fuel k v) v := by
  intro fuel k v
  cases fuel with
  | zero => exact eqScalars_refl v
  | succ f => exact ⟨rfl, rfl, rfl, rfl, rfl⟩

theorem pathKeyOf_expandEntry (m : NodeMap) (fuel : Nat) (k : String) (v : LedgerAccount) :
    pathKeyOf (expandEntry m fuel k v) = pathKeyOf v :=
  pathKeyOf_eq_of_eqScalars (expandEntry_eqScalars m fuel k v)

theorem segs_le_maxSegs : ∀ (m : NodeMap) (e : String × LedgerAccount), e ∈ m →
    segsOf e.1 ≤ maxSegs m := by
  intro m
  induction m with
  | nil => intro e he; simp at he
  | cons e0 m ih =>
    intro e he
    unfold maxSegs
    rw [List.map_cons, List.foldr_cons]
    rcases List.mem_cons.mp he with h | h
    · subst h; exact Nat.le_max_left _ _
    · exact Nat.le_trans (ih e h) (Nat.le_max_right _ _)

theorem allNodes_expandEntry_shape (m : NodeMap)
    (hc : ∀ e ∈ m, e.2.children = []) :
    ∀ (fuel : Nat) (k : String) (v : LedgerAccount), (k, v) ∈ m →
      ∀ x ∈ allNodes (expandEntry m fuel k v), ∃ e ∈ m, eqScalars x e.2 := by
  intro fuel
  induction fuel with
  | zero =>
    intro k v hm x hx
    rw [expandEntry] at hx
    rw [allNodes_eq, hc (k, v) hm] at hx
    rw [allNodesL] at hx
    rcases List.mem_cons.mp hx with h | h
    · rw [h]; exact ⟨(k, v), hm, eqScalars_refl v⟩
    · simp at h
  | succ f ih =>
    intro k v hm x hx
    rcases mem_allNodes_cases hx with h | ⟨c, hc2, hxc⟩
    · exact ⟨(k, v), hm, h ▸ expandEntry_eqScalars m (f + 1) k v⟩
    · rw [expandEntry] at hc2
      simp only at hc2
      rcases List.mem_filterMap.mp hc2 with ⟨e, he, hfe⟩
      split_ifs at hfe with hcond
      have hc3 := Option.some.inj hfe
      rw [← hc3] at hxc
      exact ih e.1 e.2 he x hxc

theorem rawForest_shape (m : NodeMap) (hc : ∀ e ∈ m, e.2.children = []) :
    ∀ x ∈ allNodesF (buildForestRaw m), ∃ e ∈ m, eqScalars x e.2 := by
  intro x hx
  unfold allNodesF at hx
  rcases mem_allNodesL_iff.mp hx with ⟨r, hr, hxr⟩
  unfold buildForestRaw at hr
  rcases List.mem_filterMap.mp hr with ⟨e, he, hfe⟩
  split_ifs at hfe with hcond
  have hr2 := Option.some.inj hfe
  rw [← hr2] at hxr
  exact allNodes_expandEntry_shape m hc (maxSegs m) e.1 e.2 he x hxr

theorem allNodes_trans :
    ∀ (z x y : LedgerAccount), x ∈ allNodes y → y ∈ allNodes z → x ∈ allNodes z := by
  intro z
  induction z using node_ind with
  | _ z ih =>
    intro x y hxy hyz
    rcases mem_allNodes_cases hyz with h | ⟨c, hc, hyc⟩
    · subst h; exact hxy
    · exact mem_allNodes_of_child hc (ih c hc x y hxy hyc)

theorem mem_allNodesF_of_tree {x t : LedgerAccount} {ts : List LedgerAccount}
    (ht : t ∈ ts) (hx : x ∈ allNodes t) : x ∈ allNodesF ts :=
  mem_allNodesL_iff.mpr ⟨t, ht, hx⟩

theorem reach (m : NodeMap)
    (hPC : ∀ e ∈ m, 2 ≤ segsOf e.1 → mhas m (parentKey e.1) = true) :
    ∀ (s : Nat) (k : String) (v : LedgerAccount), (k, v) ∈ m → segsOf k = s →
      expandEntry m (maxSegs m + 1 - s) k v ∈ allNodesF (buildForestRaw m) := by
  intro s
  induction s using Nat.strong_induction_on with
  | _ s ih =>
    intro k v hm hs
    rcases Nat.lt_or_ge s 2 with hlt | hge
    · -- s = 1 (s = 0 is impossible): a root entry
      have hs1 : s = 1 := by
        have := segsOf_pos k
        omega
      subst hs1
      have hroot : isRootKey k = true := by
        unfold isRootKey
        rw [hs]
        rfl
      have hmem : expandEntry m (maxSegs m) k v ∈ buildForestRaw m := by
        unfold buildForestRaw
        apply List.mem_filterMap.mpr
        exact ⟨(k, v), hm, by rw [if_pos hroot]⟩
      have hfuel : maxSegs m + 1 - 1 = maxSegs m := by omega
      rw [hfuel]
      exact mem_allNodesF_of_tree hmem (self_mem_allNodes _)
    · -- s ≥ 2: hang the entry under its parent, which is present and reachable
      have hpk : mhas m (parentKey k) = true :=
        hPC (k, v) hm (by simp only; rw [hs]; exact hge)
      have hpsome := hpk
      unfold mhas at hpsome
      match hpv : mget m (parentKey k) with
      | none => rw [hpv] at hpsome; simp at hpsome
      | some pv =>
        have hpmem : (parentKey k, pv) ∈ m := mem_of_mget hpv
        have hpsegs : segsOf (parentKey k) + 1 = s := by
          rw [← hs]
          exact segsOf_parentKey k (by rw [hs]; exact hge)
        have hps : segsOf (parentKey k) = s - 1 := by omega
        have hs_le : s ≤ maxSegs m := hs ▸ segs_le_maxSegs m (k, v) hm
        have hparent := ih (s - 1) (by omega) (parentKey k) pv hpmem hps
        have hfp : maxSegs m + 1 - (s - 1) = (maxSegs m + 1 - s) + 1 := by omega
        rw [hfp] at hparent
        have hchild : expandEntry m (maxSegs m + 1 - s) k v ∈
            (expandEntry m ((maxSegs m + 1 - s) + 1) (parentKey k) pv).children := by
          rw [expandEntry]
          simp only
          apply List.mem_filterMap.mpr
          refine ⟨(k, v), hm, ?_⟩
          have hnroot : isRootKey k = false := by
            unfold isRootKey
            rw [hs]
            simp
            omega
          have hbeq : (parentKey k == parentKey k) = true := by simp
          rw [hnroot]
          simp only [Bool.not_false, hbeq, Bool.and_true, Bool.true_and]
          rw [if_pos hpk]
        rcases mem_allNodesL_iff.mp hparent with ⟨r, hr, hpr⟩
        exact mem_allNodesF_of_tree hr
          (allNodes_trans r _ _
            (mem_allNodes_of_child hchild (self_mem_allNodes _)) hpr)

/-! ### The full pipeline -/

theorem buildTreeFromPaths_eq (accounts : List LedgerAccount) :
    buildTreeFromPaths accounts =
      jsSortBy leLoc
        ((((buildForestRaw (phase1 accounts)).map
            (aggNode (accounts.map pathKeyOf))).map
            (aggClearedNode (accounts.map pathKeyOf))).map sortNodeRec) := rfl

theorem mem_allNodesF_map_origin {f : LedgerAccount → LedgerAccount}
    {ts : List LedgerAccount} {x : LedgerAccount}
    (hx : x ∈ allNodesF (ts.map f)) : ∃ t ∈ ts, x ∈ allNodes (f t) := by
  rcases mem_allNodesL_iff.mp hx with ⟨r, hr, hxr⟩
  rcases List.mem_map.mp hr with ⟨t, ht, rfl⟩
  exact ⟨t, ht, hxr⟩

theorem mem_allNodesF_map_image {f : LedgerAccount → LedgerAccount}
    {ts : List LedgerAccount} {t x : LedgerAccount}
    (ht : t ∈ ts) (hx : x ∈ allNodes (f t)) : x ∈ allNodesF (ts.map f) :=
  mem_allNodesL_iff.mpr ⟨f t, List.mem_map_of_mem f ht, hx⟩

theorem mem_allNodesF_jsSortBy {le : LedgerAccount → LedgerAccount → Bool}
    {ts : List LedgerAccount} {x : LedgerAccount} :
    x ∈ allNodesF (jsSortBy le ts) ↔ x ∈ allNodesF ts := by
  constructor
  · intro hx
    rcases mem_allNodesL_iff.mp hx with ⟨r, hr, hxr⟩
    exact mem_allNodesL_iff.mpr ⟨r, mem_jsSortBy.mp hr, hxr⟩
  · intro hx
    rcases mem_allNodesL_iff.mp hx with ⟨r, hr, hxr⟩
    exact mem_allNodesL_iff.mpr ⟨r, mem_jsSortBy.mpr hr, hxr⟩

theorem rawForest_nonauth_zero (accounts : List LedgerAccount) :
    ∀ x ∈ allNodesF (buildForestRaw (phase1 accounts)),
      isAuth (accounts.map pathKeyOf) x = false → x.amount = 0 := by
  intro x hx hf
  obtain ⟨e, he, hsc⟩ := rawForest_shape (phase1 accounts)
    (fun e he => (phase1_entry_keycoh accounts e he).2) x hx
  have hk : pathKeyOf x = pathKeyOf e.2 := pathKeyOf_eq_of_eqScalars hsc
  have hf2 : isAuth (accounts.map pathKeyOf) e.2 = false := by
    unfold isAuth at hf ⊢
    rwa [← hk]
  have hz := (phase1_nonauth_zero accounts e he hf2).1
  rw [hsc.2.1, hz]

/-- After the whole `buildTreeFromPaths` pipeline, every node absent from
the authoritative input carries the sum of its children's amounts. -/
theorem buildTree_synth_amount (accounts : List LedgerAccount) :
    ∀ x ∈ allNodesF (buildTreeFromPaths accounts),
      isAuth (accounts.map pathKeyOf) x = false →
        x.amount = sumAmounts x.children := by
  intro x hx
  rw [buildTreeFromPaths_eq] at hx
  rw [mem_allNodesF_jsSortBy] at hx
  obtain ⟨t2, ht2, hx2⟩ := mem_allNodesF_map_origin hx
  obtain ⟨t1, ht1, ht2mem⟩ := mem_allNodesF_map_origin (mem_allNodesL_iff.mpr ⟨t2, ht2, self_mem_allNodes t2⟩)
  obtain ⟨t0, ht0, ht1mem⟩ := mem_allNodesF_map_origin (mem_allNodesL_iff.mpr ⟨t1, ht1, self_mem_allNodes t1⟩)
  -- t2 = aggClearedNode (aggNode t0 …) up to membership; build up the Q chain
  have hQ1 : ∀ m ∈ allNodes (aggNode (accounts.map pathKeyOf) t0),
      Qamt (accounts.map pathKeyOf) m := by
    apply Q_agg
    intro m hm hf
    exact rawForest_nonauth_zero accounts m
      (mem_allNodesF_of_tree ht0 hm) hf
  -- t1 is a node of the agg-mapped forest; but for the Q chain we need t1's subtree
  have hQ1' : ∀ m ∈ allNodes t1, Qamt (accounts.map pathKeyOf) m := by
    intro m hm
    exact hQ1 m (allNodes_trans _ _ _ hm ht1mem)
  have hQ2 : ∀ m ∈ allNodes t2, Qamt (accounts.map pathKeyOf) m := by
    intro m hm
    have h2 := Q_cleared (accounts.map pathKeyOf) t1 hQ1'
    exact h2 m (allNodes_trans _ _ _ hm ht2mem)
  exact Q_sort (accounts.map pathKeyOf) t2 hQ2 x hx2

theorem rawForest_Pauth (accounts : List LedgerAccount)
    (hnd : (accounts.map pathKeyOf).Nodup) :
    ∀ x ∈ allNodesF (buildForestRaw (phase1 accounts)), Pauth accounts x := by
  intro x hx a ha hk
  obtain ⟨e, he, hsc⟩ := rawForest_shape (phase1 accounts)
    (fun e he => (phase1_entry_keycoh accounts e he).2) x hx
  have hcoh := (phase1_entry_keycoh accounts e he).1
  have hkey : e.1 = pathKeyOf a := by
    rw [← hcoh, ← pathKeyOf_eq_of_eqScalars hsc, hk]
  have hget : mget (phase1 accounts) e.1 = some e.2 :=
    mget_of_mem_nodup (phase1_keys_nodup accounts) (by rw [← Prod.mk.eta (p := e)] at he; exact he)
  rw [hkey, phase1_auth_mget accounts hnd a ha] at hget
  have he2 : e.2 = { a with children := [] } := (Option.some.inj hget).symm
  have hsc2 : eqScalars { a with children := [] } a := ⟨rfl, rfl, rfl, rfl, rfl⟩
  exact eqScalars_trans (he2 ▸ hsc) hsc2

/-- After the whole pipeline, a node whose path key names an authoritative
input account (unique by hypothesis) carries exactly that account's scalar
fields. -/
theorem buildTree_auth_scalars (accounts : List LedgerAccount)
    (hnd : (accounts.map pathKeyOf).Nodup) :
    ∀ x ∈ allNodesF (buildTreeFromPaths accounts), Pauth accounts x := by
  intro x hx
  rw [buildTreeFromPaths_eq] at hx
  rw [mem_allNodesF_jsSortBy] at hx
  obtain ⟨t2, ht2, hx2⟩ := mem_allNodesF_map_origin hx
  obtain ⟨t1, ht1, ht2mem⟩ := mem_allNodesF_map_origin (mem_allNodesL_iff.mpr ⟨t2, ht2, self_mem_allNodes t2⟩)
  obtain ⟨t0, ht0, ht1mem⟩ := mem_allNodesF_map_origin (mem_allNodesL_iff.mpr ⟨t1, ht1, self_mem_allNodes t1⟩)
  have hP0 : ∀ m ∈ allNodes t0, Pauth accounts m := by
    intro m hm
    exact rawForest_Pauth accounts hnd m (mem_allNodesF_of_tree ht0 hm)
  have hP1 : ∀ m ∈ allNodes t1, Pauth accounts m := by
    intro m hm
    exact Pa_agg accounts t0 hP0 m (allNodes_trans _ _ _ hm ht1mem)
  have hP2 : ∀ m ∈ allNodes t2, Pauth accounts m := by
    intro m hm
    exact Pa_cleared accounts t1 hP1 m (allNodes_trans _ _ _ hm ht2mem)
  exact Pa_sort accounts t2 hP2 x hx2

/-! ### Authoritative nodes survive into the output -/

theorem buildTree_auth_exists (accounts : List LedgerAccount)
    (hnd : (accounts.map pathKeyOf).Nodup)
    (hv : ∀ a ∈ accounts, headSeg (pathKeyOf a) ≠ "") :
    ∀ a ∈ accounts, ∃ x ∈ allNodesF (buildTreeFromPaths accounts), eqScalars x a := by
  intro a ha
  have hget := phase1_auth_mget accounts hnd a ha
  have hmem : (pathKeyOf a, { a with children := [] }) ∈ phase1 accounts :=
    mem_of_mget hget
  have hPC := phase1_closure accounts hv
  have hx0 := reach (phase1 accounts) hPC (segsOf (pathKeyOf a)) (pathKeyOf a)
    { a with children := [] } hmem rfl
  set x0 := expandEntry (phase1 accounts)
    (maxSegs (phase1 accounts) + 1 - segsOf (pathKeyOf a)) (pathKeyOf a)
    { a with children := [] } with hx0def
  have hsc0 : eqScalars x0 a :=
    eqScalars_trans (expandEntry_eqScalars _ _ _ _) ⟨rfl, rfl, rfl, rfl, rfl⟩
  have hk0 : pathKeyOf x0 = pathKeyOf a := pathKeyOf_eq_of_eqScalars hsc0
  have hauth0 : isAuth (accounts.map pathKeyOf) x0 = true := isAuth_of_pathKey ha hk0
  -- through the aggregation pass
  obtain ⟨r0, hr0, hx0r⟩ := mem_allNodesL_iff.mp hx0
  have hx1 : aggNode (accounts.map pathKeyOf) x0 ∈
      allNodesF ((buildForestRaw (phase1 accounts)).map (aggNode (accounts.map pathKeyOf))) :=
    mem_allNodesF_map_image hr0 (mem_allNodes_aggNode_image _ r0 x0 hx0r)
  set x1 := aggNode (accounts.map pathKeyOf) x0 with hx1def
  have hsc1 : eqScalars x1 x0 := aggNode_eqScalars_of_auth _ x0 hauth0
  have hauth1 : isAuth (accounts.map pathKeyOf) x1 = true := by
    unfold isAuth at hauth0 ⊢
    rwa [pathKeyOf_eq_of_eqScalars hsc1]
  -- through the cleared pass
  obtain ⟨r1, hr1, hx1r⟩ := mem_allNodesL_iff.mp hx1
  have hx2 : aggClearedNode (accounts.map pathKeyOf) x1 ∈
      allNodesF (((buildForestRaw (phase1 accounts)).map
        (aggNode (accounts.map pathKeyOf))).map (aggClearedNode (accounts.map pathKeyOf))) :=
    mem_allNodesF_map_image hr1 (mem_allNodes_aggClearedNode_image _ r1 x1 hx1r)
  set x2 := aggClearedNode (accounts.map pathKeyOf) x1 with hx2def
  have hsc2 : eqScalars x2 x1 := aggClearedNode_eqScalars_of_auth _ x1 hauth1
  -- through the sorting pass
  obtain ⟨r2, hr2, hx2r⟩ := mem_allNodesL_iff.mp hx2
  have hx3 : sortNodeRec x2 ∈
      allNodesF ((((buildForestRaw (phase1 accounts)).map
        (aggNode (accounts.map pathKeyOf))).map
        (aggClearedNode (accounts.map pathKeyOf))).map sortNodeRec) :=
    mem_allNodesF_map_image hr2 (mem_allNodes_sortNodeRec_image r2 x2 hx2r)
  refine ⟨sortNodeRec x2, ?_, ?_⟩
  · rw [buildTreeFromPaths_eq, mem_allNodesF_jsSortBy]
    exact hx3
  · exact eqScalars_trans (sortNodeRec_eqScalars x2)
      (eqScalars_trans hsc2 (eqScalars_trans hsc1 hsc0))

theorem locSortedLB_iff :
    ∀ l : List LedgerAccount, locSortedLB l = true ↔ ∀ c ∈ l, locSortedB c = true := by
  intro l
  induction l with
  | nil => simp [locSortedLB]
  | cons n ns ih =>
    rw [locSortedLB, Bool.and_eq_true, ih]
    constructor
    · rintro ⟨h1, h2⟩ c hc
      rcases List.mem_cons.mp hc with h | h
      · subst h; exact h1
      · exact h2 c h
    · intro h
      exact ⟨h n (List.mem_cons_self _ _), fun c hc => h c (List.mem_cons_of_mem _ hc)⟩

theorem locSortedB_eq (n : LedgerAccount) :
    locSortedB n = (chainB leLoc n.children && locSortedLB n.children) := by
  cases n
  rw [locSortedB]

theorem sortNodeRec_locSorted : ∀ t, locSortedB (sortNodeRec t) = true := by
  intro t
  induction t using node_ind with
  | _ t ih =>
    rw [locSortedB_eq, sortNodeRec_eq]
    simp only
    rw [Bool.and_eq_true]
    constructor
    · exact chainB_of_pairwise leLoc _ (pairwise_jsSortBy leLoc leLoc_total leLoc_trans _)
    · rw [locSortedLB_iff]
      intro c hc
      have hc2 := mem_jsSortBy.mp hc
      rw [sortListRec_eq_map] at hc2
      obtain ⟨c0, hc0, rfl⟩ := List.mem_map.mp hc2
      exact ih c0 hc0

theorem buildTree_locSorted (accounts : List LedgerAccount) :
    locSortedForestB (buildTreeFromPaths accounts) = true := by
  rw [buildTreeFromPaths_eq]
  unfold locSortedForestB
  rw [Bool.and_eq_true]
  constructor
  · exact chainB_of_pairwise leLoc _ (pairwise_jsSortBy leLoc leLoc_total leLoc_trans _)
  · rw [locSortedLB_iff]
    intro c hc
    have hc2 := mem_jsSortBy.mp hc
    obtain ⟨c0, hc0, rfl⟩ := List.mem_map.mp hc2
    exact sortNodeRec_locSorted c0

/-! ### Membership via the boolean equality test (used by witnesses) -/

theorem mem_of_any_nodeBEq {x : LedgerAccount} :
    ∀ {l : List LedgerAccount}, l.any (nodeBEq x) = true → x ∈ l := by
  intro l
  induction l with
  | nil => intro h; simp at h
  | cons n ns ih =>
    intro h
    rw [List.any_cons, Bool.or_eq_true] at h
    rcases h with h | h
    · rw [(nodeBEq_iff x n).mp h]
      exact List.mem_cons_self _ _
    · exact List.mem_cons_of_mem _ (ih h)

/-! ### Claim C1 -/

/-- C1 (counterexample): the claim "normalizing then aggregating yields, at
every interior node, an amount equal to the exact sum of that node's
descendant leaf amounts" is false: for the input
`[{path: "Despesas:Casa", amount: 100}, {path: "Despesas:Casa:Luz", amount: 40}]`
the interior node `Despesas:Casa` keeps its authoritative amount 100 even
though its only descendant leaf sums to 40. -/
theorem C1_counterexample :
    leafSumInvLB (buildTreeFromPaths [exCasa, exLuz]) = false := by decide

/-- C1 (amended): after `buildTreeFromPaths` (normalize + aggregate), every
interior node's amount is its own authoritative input amount when the
node's path occurs in the input, and otherwise the exact sum of its
children's aggregated amounts; the descendant-leaf-sum form of the claim
holds only when no authoritative node is interior. -/
theorem C1_interior_amount (accounts : List LedgerAccount)
    (hnd : (accounts.map pathKeyOf).Nodup) :
    ∀ x ∈ allNodesF (buildTreeFromPaths accounts), x.children.isEmpty = false →
      (∃ a ∈ accounts, pathKeyOf a = pathKeyOf x ∧ x.amount = a.amount) ∨
      ((∀ a ∈ accounts, pathKeyOf a ≠ pathKeyOf x) ∧
        x.amount = sumAmounts x.children) := by
  intro x hx _
  by_cases hauth : isAuth (accounts.map pathKeyOf) x = true
  · left
    unfold isAuth at hauth
    have hmem : pathKeyOf x ∈ accounts.map pathKeyOf := by
      have h2 := List.mem_of_elem_eq_true hauth
      exact h2
    obtain ⟨a, ha, hk⟩ := List.mem_map.mp hmem
    refine ⟨a, ha, hk, ?_⟩
    exact (buildTree_auth_scalars accounts hnd x hx a ha hk.symm).2.1
  · right
    rw [Bool.not_eq_true] at hauth
    constructor
    · intro a ha hk
      rw [isAuth_of_pathKey ha hk.symm] at hauth
      exact Bool.true_eq_false.mp hauth
    · exact buildTree_synth_amount accounts x hx hauth

/-- C1 (witness): in the spec's own example the interior `Despesas:Casa`
node is authoritative and keeps its amount 100. -/
theorem C1_interior_amount_witness :
    ([exCasa, exLuz].map pathKeyOf).Nodup ∧
    exCasaOut ∈ allNodesF (buildTreeFromPaths [exCasa, exLuz]) ∧
    exCasaOut.children.isEmpty = false ∧
    ((∃ a ∈ [exCasa, exLuz], pathKeyOf a = pathKeyOf exCasaOut ∧
        exCasaOut.amount = a.amount) ∨
      ((∀ a ∈ [exCasa, exLuz], pathKeyOf a ≠ pathKeyOf exCasaOut) ∧
        exCasaOut.amount = sumAmounts exCasaOut.children)) := by
  refine ⟨by decide, ?_, by decide, ?_⟩
  · exact mem_of_any_nodeBEq (by decide)
  · exact C1_interior_amount [exCasa, exLuz] (by decide) exCasaOut
      (mem_of_any_nodeBEq (by decide)) (by decide)

/-! ### Claim C2 -/

/-- C2: authoritative input data is never overwritten by derived data.
Under the data-model invariants (`fullPath` unique per node and paths whose
first `:`-segment is non-empty), every authoritative input account appears
in the output of `buildTreeFromPaths` with all five scalar fields — in
particular `amount` and `clearedAmount` — untouched: no synthesized
placeholder replaced it during construction (placeholders are only created
at absent keys), and the aggregation passes only write into nodes whose
path is absent from the input. -/
theorem C2_auth_preserved (accounts : List LedgerAccount)
    (hnd : (accounts.map pathKeyOf).Nodup)
    (hv : ∀ a ∈ accounts, headSeg (pathKeyOf a) ≠ "") :
    ∀ a ∈ accounts, ∃ x ∈ allNodesF (buildTreeFromPaths accounts),
      x.account = a.account ∧ x.amount = a.amount ∧
      x.clearedAmount = a.clearedAmount ∧
      x.lastClearedDate = a.lastClearedDate ∧ x.fullPath = a.fullPath :=
  buildTree_auth_exists accounts hnd hv

/-- C2 (witness): the spec's example input, with the authoritative interior
account `Despesas:Casa` carrying amount 100 and clearedAmount 5. -/
theorem C2_auth_preserved_witness :
    ([exCasa, exLuz].map pathKeyOf).Nodup ∧
    (∀ a ∈ [exCasa, exLuz], headSeg (pathKeyOf a) ≠ "") ∧
    ∃ x ∈ allNodesF (buildTreeFromPaths [exCasa, exLuz]),
      x.account = exCasa.account ∧ x.amount = exCasa.amount ∧
      x.clearedAmount = exCasa.clearedAmount ∧
      x.lastClearedDate = exCasa.lastClearedDate ∧ x.fullPath = exCasa.fullPath := by
  refine ⟨by decide, by decide, ?_⟩
  exact C2_auth_preserved [exCasa, exLuz] (by decide) (by decide)
    exCasa (List.mem_cons_self _ _)

/-! ### Claim C3 -/

/-- C3: after aggregation every node that was not present in the
authoritative input (a synthesized parent) carries, as its amount, the
exact sum of its children's aggregated amounts — zero when it has no
children carrying an amount. -/
theorem C3_synth_amount (accounts : List LedgerAccount) :
    ∀ x ∈ allNodesF (buildTreeFromPaths accounts),
      (∀ a ∈ accounts, pathKeyOf a ≠ pathKeyOf x) →
        x.amount = sumAmounts x.children := by
  intro x hx hna
  apply buildTree_synth_amount accounts x hx
  by_cases hauth : isAuth (accounts.map pathKeyOf) x = true
  · exfalso
    unfold isAuth at hauth
    obtain ⟨a, ha, hk⟩ := List.mem_map.mp (List.mem_of_elem_eq_true hauth)
    exact hna a ha hk
  · rwa [Bool.not_eq_true] at hauth

/-- C3 (witness): the spec's example — `[{path:"A:B", amount:10},
{path:"A:C", amount:5}]` with no `"A"` entry yields a synthesized `"A"`
node whose amount is `10 + 5 = 15`. -/
theorem C3_synth_amount_witness :
    exAOut ∈ allNodesF (buildTreeFromPaths [exAB, exAC]) ∧
    (∀ a ∈ [exAB, exAC], pathKeyOf a ≠ pathKeyOf exAOut) ∧
    exAOut.amount = sumAmounts exAOut.children ∧ exAOut.amount = 15 := by
  refine ⟨mem_of_any_nodeBEq (by decide), by decide, ?_, by decide⟩
  exact C3_synth_amount [exAB, exAC] exAOut (mem_of_any_nodeBEq (by decide)) (by decide)

/-! ### Claim C4 -/

/-- C4: the `AccountTree` normalizer (`treeAccounts`) is idempotent on
already-nested input: when some element carries non-empty children the
input is detected as a tree and passed through unchanged, so renormalizing
the output yields an identical structure. -/
theorem C4_idempotent (accounts : List LedgerAccount)
    (h : isTreeInput accounts = true) :
    treeAccounts (treeAccounts accounts) = treeAccounts accounts := by
  unfold treeAccounts
  rw [if_pos h, if_pos h]

/-- C4 (witness): a nested two-level input. -/
theorem C4_idempotent_witness :
    isTreeInput [exAOut] = true ∧
    treeAccounts (treeAccounts [exAOut]) = treeAccounts [exAOut] :=
  ⟨by decide, C4_idempotent [exAOut] (by decide)⟩

/-! ### Claim C9 (counterexample part) -/

/-- C9 (counterexample): `buildTreeFromPaths` sorts sibling lists by plain
`localeCompare` with no Liquido exception: on input
`[{path:"X:Liquido"}, {path:"X:Z"}]` the output orders `Liquido` before
`Z`, violating the claimed "Liquido sorts last among its siblings". -/
theorem C9_counterexample :
    liqSortedForestB (buildTreeFromPaths [exLiquido, exZ]) = false := by decide

theorem sizeOf_lt_of_mem_children2 {c n : Acc2}
    (hc : c ∈ n.children) : sizeOf c < sizeOf n := by
  have h1 : sizeOf c < sizeOf n.children := List.sizeOf_lt_of_mem hc
  cases n with
  | mk a b d e f g i =>
    simp only [Acc2.mk.sizeOf_spec]
    simp only at h1
    omega

theorem node_ind2 (P : Acc2 → Prop)
    (h : ∀ n, (∀ c ∈ n.children, P c) → P n) : ∀ n, P n := by
  intro n
  exact h n (fun c hc => node_ind2 P h c)
termination_by n => sizeOf n
decreasing_by exact sizeOf_lt_of_mem_children2 hc

theorem leLiq2_total (a b : Acc2) : leLiq2 a b || leLiq2 b a := by
  unfold leLiq2
  rcases liqCmpStr_le_total a.account b.account with h | h <;> simp [h]

theorem leLiq2_trans (a b c : Acc2)
    (h1 : leLiq2 a b = true) (h2 : leLiq2 b c = true) : leLiq2 a c = true := by
  unfold leLiq2 at *
  simp only [decide_eq_true_eq] at *
  exact liqCmpStr_le_trans _ _ _ h1 h2

theorem sortChildren2L_eq_map :
    ∀ l : List Acc2, sortChildren2L l = l.map sortChildren2 := by
  intro l
  induction l with
  | nil => rw [sortChildren2L]; rfl
  | cons n ns ih => rw [sortChildren2L, ih]; rfl

theorem liqSorted2LB_iff :
    ∀ l : List Acc2, liqSorted2LB l = true ↔ ∀ c ∈ l, liqSorted2B c = true := by
  intro l
  induction l with
  | nil => simp [liqSorted2LB]
  | cons n ns ih =>
    rw [liqSorted2LB, Bool.and_eq_true, ih]
    constructor
    · rintro ⟨h1, h2⟩ c hc
      rcases List.mem_cons.mp hc with h | h
      · subst h; exact h1
      · exact h2 c h
    · intro h
      exact ⟨h n (List.mem_cons_self _ _), fun c hc => h c (List.mem_cons_of_mem _ hc)⟩

theorem liqSorted2B_eq (n : Acc2) :
    liqSorted2B n = (chainB leLiq2 n.children && liqSorted2LB n.children) := by
  cases n
  rw [liqSorted2B]

theorem sortChildren2_eq (n : Acc2) :
    sortChildren2 n = { n with children := jsSortBy leLiq2 (sortChildren2L n.children) } := by
  cases n
  rw [sortChildren2]

theorem sortChildren2_liqSorted : ∀ t, liqSorted2B (sortChildren2 t) = true := by
  intro t
  induction t using node_ind2 with
  | _ t ih =>
    rw [liqSorted2B_eq, sortChildren2_eq]
    simp only
    rw [Bool.and_eq_true]
    constructor
    · exact chainB_of_pairwise leLiq2 _ (pairwise_jsSortBy leLiq2 leLiq2_total leLiq2_trans _)
    · rw [liqSorted2LB_iff]
      intro c hc
      have hc2 := mem_jsSortBy.mp hc
      rw [sortChildren2L_eq_map] at hc2
      obtain ⟨c0, hc0, rfl⟩ := List.mem_map.mp hc2
      exact ih c0 hc0

theorem sortedAccountsLiq_sorted (accs : List Acc2) :
    liqSorted2ForestB (sortedAccountsLiq accs) = true := by
  unfold sortedAccountsLiq liqSorted2ForestB
  rw [Bool.and_eq_true]
  constructor
  · exact chainB_of_pairwise leLiq2 _ (pairwise_jsSortBy leLiq2 leLiq2_total leLiq2_trans _)
  · rw [liqSorted2LB_iff]
    intro c hc
    have hc2 := mem_jsSortBy.mp hc
    rw [sortChildren2L_eq_map] at hc2
    obtain ⟨c0, hc0, rfl⟩ := List.mem_map.mp hc2
    exact sortChildren2_liqSorted c0

/-! ### Claim C9 (amended) -/

/-- C9 (amended): `buildTreeFromPaths` sorts every sibling list (and the
root list) ascending by `localeCompare` alone — the Liquido special case
does not apply there (see the counterexample) — while the `sortedAccounts`
pass of the multi-currency `AccountTree` revision sorts every sibling list
of its already-nested input ascending with accent-stripped `liquido` last. -/
theorem C9_sibling_order :
    (∀ accounts : List LedgerAccount,
      locSortedForestB (buildTreeFromPaths accounts) = true) ∧
    (∀ accs : List Acc2, liqSorted2ForestB (sortedAccountsLiq accs) = true) :=
  ⟨buildTree_locSorted, sortedAccountsLiq_sorted⟩

/-- C8 (counterexample): the claim says rendering "proceeds without error
on that precondition check when `amountsBigInt` is present", but the
five-column revision's `assertHasBig` also throws when only
`clearedAmountsBigInt` is missing: a node carrying `amountsBigInt` still
fails its check. -/
theorem C8_counterexample :
    exAccNoCleared.amountsBigInt.isSome = true ∧
    (assertHasBigWithCleared exAccNoCleared).isOk = false := by decide

/-- C8 (amended): both `assertHasBig` variants raise exactly when their
precomputed maps are absent — the four-column variant errors iff
`amountsBigInt` is missing, the five-column variant errors iff
`amountsBigInt` or `clearedAmountsBigInt` is missing — and neither
silently defaults a missing map. -/
theorem C8_assert_characterization (acc : Acc2) :
    ((assertHasBig acc).isOk = acc.amountsBigInt.isSome) ∧
    ((assertHasBigWithCleared acc).isOk =
      (acc.amountsBigInt.isSome && acc.clearedAmountsBigInt.isSome)) := by
  constructor
  · unfold assertHasBig
    split_ifs with h
    · rw [h]; rfl
    · rw [Bool.not_eq_true] at h
      rw [h]; rfl
  · unfold assertHasBigWithCleared
    split_ifs with h
    · rw [h]; rfl
    · rw [Bool.not_eq_true] at h
      rw [h]; rfl

theorem jsSliceIdx_zero (len : Nat) : jsSliceIdx len 0 = 0 := by
  unfold jsSliceIdx
  rw [if_neg (by omega)]
  simp

theorem jsSliceIdx_coe (len k : Nat) : jsSliceIdx len (k : Int) = min k len := by
  unfold jsSliceIdx
  rw [if_neg (by omega)]
  simp

theorem jsSlice_zero_coe (l : List α) (k : Nat) :
    jsSlice l 0 (k : Int) = l.take k := by
  unfold jsSlice
  rw [jsSliceIdx_zero, jsSliceIdx_coe, List.drop_zero]
  rcases Nat.le_total k l.length with h | h
  · rw [Nat.min_eq_left h]
  · rw [Nat.min_eq_right h, List.take_length, List.take_of_length_le h]

theorem jsSliceFrom_coe (l : List α) (k : Nat) :
    jsSliceFrom l (k : Int) = l.drop k := by
  unfold jsSliceFrom jsSlice
  rw [jsSliceIdx_coe (l.length) (l.length), Nat.min_self, List.take_length, jsSliceIdx_coe]
  rcases Nat.le_total k l.length with h | h
  · rw [Nat.min_eq_left h]
  · rw [Nat.min_eq_right h, List.drop_length, List.drop_eq_nil_of_le h]

/-! ### Claim C6 -/

/-- C6 (counterexample): the claim "in all cases the output row count never
exceeds N" fails at cap `N = 0`: a two-row list folds to
`[first, Others (1 accounts)]` — two rows — because `slice(0, -1)` keeps
everything but the last row. -/
theorem C6_counterexample :
    ¬((processedExpenses 0 [exExp1, exExp2]).length ≤ 0) := by decide

/-- C6 (amended): for every cap `N ≥ 1`: a list of at most `N` rows is
returned unchanged; a longer list becomes its first `N − 1` rows followed
by one synthetic `Others` row whose amount is the exact sum of all
remaining rows' amounts and whose label reports the folded-account count;
and the output row count never exceeds `N`. -/
theorem C6_top_n_fold (N : Nat) (hN : 1 ≤ N) (l : List ExpenseData) :
    (l.length ≤ N → processedExpenses N l = l) ∧
    (N < l.length →
      processedExpenses N l =
        l.take (N - 1) ++
          [⟨"Others (" ++ String.mk (natDigits (l.length - (N - 1))) ++ " accounts)",
            ((l.drop (N - 1)).map (fun e => e.amount)).sum, true⟩]) ∧
    (processedExpenses N l).length ≤ N := by
  have hcast : ((N : Int) - 1) = ((N - 1 : Nat) : Int) := by omega
  unfold processedExpenses
  by_cases hlen : l.length ≤ N
  · rw [if_pos hlen]
    exact ⟨fun _ => rfl, fun h => absurd h (by omega), hlen⟩
  · rw [if_neg hlen]
    simp only
    rw [hcast, jsSlice_zero_coe, jsSliceFrom_coe]
    refine ⟨fun h => absurd h hlen, fun _ => ?_, ?_⟩
    · rw [List.length_drop]
    · rw [List.length_append, List.length_take]
      simp only [List.length_cons, List.length_nil]
      omega

/-- C6 (witness): the spec's example — 12 expense rows with cap 10 fold to
at most 10 rows, the last labeled `Others (3 accounts)` carrying the exact
sum 30 + 20 + 10 = 60 of the three folded rows. -/
theorem C6_top_n_fold_witness :
    (1 ≤ 10) ∧ (processedExpenses 10 exExpenses12).length ≤ 10 ∧
    (processedExpenses 10 exExpenses12).getLast? =
      some ⟨"Others (3 accounts)", 60, true⟩ :=
  ⟨by decide, (C6_top_n_fold 10 (by decide) exExpenses12).2.2, by decide⟩

theorem mem_jsSlice {x : α} {l : List α} {a b : Int} (h : x ∈ jsSlice l a b) :
    x ∈ l := by
  unfold jsSlice at h
  exact List.mem_of_mem_take (List.mem_of_mem_drop h)

theorem mem_jsSliceFrom {x : α} {l : List α} {a : Int} (h : x ∈ jsSliceFrom l a) :
    x ∈ l :=
  mem_jsSlice h

theorem foldl_othersStep_inv (rest : List DiffRow) :
    ∀ init : DiffRow, init.diff = init.b - init.a →
      (∀ r ∈ rest, r.diff = r.b - r.a) →
      (rest.foldl othersStep init).diff =
        (rest.foldl othersStep init).b - (rest.foldl othersStep init).a := by
  induction rest with
  | nil => intro init hinit _; exact hinit
  | cons r rs ih =>
    intro init hinit hrest
    rw [List.foldl_cons]
    refine ih _ ?_ (fun x hx => hrest x (List.mem_cons_of_mem r hx))
    have hr := hrest r (List.mem_cons_self r rs)
    simp only [othersStep]
    omega

theorem diffRows_diff_eq (A B : List ExpenseItem) (n : Nat) :
    ∀ r ∈ diffRows A B n, r.diff = r.b - r.a := by
  intro r hr
  unfold diffRows at hr
  simp only at hr
  have hbase : ∀ x ∈ jsSortBy leAbsDesc
      ((allAccountsOf (buildAMap A) (buildAMap B)).map
        (diffRowOf (buildAMap A) (buildAMap B))),
      x.diff = x.b - x.a := by
    intro x hx
    rcases List.mem_map.mp (mem_jsSortBy.mp hx) with ⟨acc, _, hxeq⟩
    rw [← hxeq]
    simp only [diffRowOf]
  by_cases hlen : (jsSortBy leAbsDesc
      ((allAccountsOf (buildAMap A) (buildAMap B)).map
        (diffRowOf (buildAMap A) (buildAMap B)))).length ≤ n
  · rw [if_pos hlen] at hr
    exact hbase r hr
  · rw [if_neg hlen] at hr
    rcases List.mem_append.mp hr with htop | hlast
    · exact hbase r (mem_jsSlice htop)
    · rcases List.mem_cons.mp hlast with heq | hnil
      · have hfold := foldl_othersStep_inv
          (jsSliceFrom (jsSortBy leAbsDesc
            ((allAccountsOf (buildAMap A) (buildAMap B)).map
              (diffRowOf (buildAMap A) (buildAMap B)))) ((n : Int) - 1))
          (othersInit (jsSliceFrom (jsSortBy leAbsDesc
            ((allAccountsOf (buildAMap A) (buildAMap B)).map
              (diffRowOf (buildAMap A) (buildAMap B)))) ((n : Int) - 1)).length)
          (by simp [othersInit])
          (fun x hx => hbase x (mem_jsSliceFrom hx))
        rw [heq]
        exact hfold
      · exact absurd hnil (List.not_mem_nil r)

theorem sum_diff_of_rows (rows : List DiffRow)
    (h : ∀ r ∈ rows, r.diff = r.b - r.a) :
    (rows.map (fun r => r.diff)).sum = totalB rows - totalA rows := by
  unfold totalA totalB
  induction rows with
  | nil => simp
  | cons x xs ih =>
    simp only [List.map_cons, List.sum_cons]
    rw [h x (List.mem_cons_self x xs),
      ih (fun r hr => h r (List.mem_cons_of_mem x hr))]
    ring

/-! ### Claim C7 -/

/-- C7: for any two expense lists over the same account-name set and any
cap, the sum of the per-account deltas produced by the diff aggregator
(including a folded Others row, which accumulates both its constituent `a`
and `b` sums) equals exactly the difference of the two period totals
computed over the displayed rows. -/
theorem C7_diff_total (A B : List ExpenseItem) (n : Nat)
    (_h : sameAccountSetB A B = true) :
    ((diffRows A B n).map (fun r => r.diff)).sum =
      totalB (diffRows A B n) - totalA (diffRows A B n) :=
  sum_diff_of_rows (diffRows A B n) (diffRows_diff_eq A B n)

/-- C7 (witness): two concrete months over the accounts {Food, Rent}
(month A mentioning Food twice, so the accumulating map is exercised),
with the default cap 12. -/
theorem C7_diff_total_witness :
    sameAccountSetB exMonthA exMonthB = true ∧
    ((diffRows exMonthA exMonthB 12).map (fun r => r.diff)).sum =
      totalB (diffRows exMonthA exMonthB 12) -
        totalA (diffRows exMonthA exMonthB 12) :=
  ⟨by decide, C7_diff_total exMonthA exMonthB 12 (by decide)⟩

/-! ### Digit-string lemmas -/

theorem char_ne_of_toNat_ne {a b : Char} (h : a.toNat ≠ b.toNat) : a ≠ b :=
  fun he => h (congrArg Char.toNat he)

theorem digitChar_toNat {d : Nat} (h : d < 10) : (digitChar d).toNat = 48 + d := by
  interval_cases d <;> decide

theorem digitChar_isDigit {d : Nat} (h : d < 10) : isDigitCh (digitChar d) = true := by
  interval_cases d <;> decide

theorem digitChar_ne_zero {d : Nat} (h : d < 10) (h0 : d ≠ 0) : digitChar d ≠ '0' := by
  interval_cases d <;> first | exact absurd rfl h0 | decide

theorem natDigitsAux_ne_nil (f n : Nat) (h : 0 < f) : natDigitsAux f n ≠ [] := by
  cases f with
  | zero => exact absurd h (lt_irrefl 0)
  | succ f =>
    rw [natDigitsAux]
    split_ifs
    · exact List.cons_ne_nil _ _
    · exact List.append_ne_nil_of_right_ne_nil _ (List.cons_ne_nil _ _)

theorem natDigits_ne_nil (n : Nat) : natDigits n ≠ [] :=
  natDigitsAux_ne_nil _ n (Nat.succ_pos n)

theorem natDigitsAux_digits : ∀ f n, ∀ c ∈ natDigitsAux f n, isDigitCh c = true := by
  intro f
  induction f with
  | zero => intro n c hc; exact absurd hc (List.not_mem_nil c)
  | succ f ih =>
    intro n c hc
    rw [natDigitsAux] at hc
    split_ifs at hc with h10
    · rcases List.mem_cons.mp hc with h | h
      · rw [h]; exact digitChar_isDigit h10
      · exact absurd h (List.not_mem_nil c)
    · rcases List.mem_append.mp hc with h | h
      · exact ih _ c h
      · rcases List.mem_cons.mp h with h2 | h2
        · rw [h2]; exact digitChar_isDigit (Nat.mod_lt n (by omega))
        · exact absurd h2 (List.not_mem_nil c)

theorem natDigits_digits (n : Nat) : ∀ c ∈ natDigits n, isDigitCh c = true :=
  natDigitsAux_digits _ n

theorem digitsToNat_go : ∀ (l : List Char) (a : Nat),
    l.foldl (fun a c => 10 * a + (c.toNat - 48)) a =
      a * 10 ^ l.length + digitsToNat l := by
  intro l
  induction l with
  | nil => intro a; simp [digitsToNat]
  | cons c cs ih =>
    intro a
    have hD : digitsToNat (c :: cs) =
        (10 * 0 + (c.toNat - 48)) * 10 ^ cs.length + digitsToNat cs := ih _
    rw [List.foldl_cons, ih (10 * a + (c.toNat - 48)), hD]
    simp only [List.length_cons]
    ring

theorem digitsToNat_append (l1 l2 : List Char) :
    digitsToNat (l1 ++ l2) = digitsToNat l1 * 10 ^ l2.length + digitsToNat l2 := by
  unfold digitsToNat
  rw [List.foldl_append]
  exact digitsToNat_go l2 _

theorem digitsToNat_replicate_zero (k : Nat) :
    digitsToNat (List.replicate k '0') = 0 := by
  induction k with
  | zero => rfl
  | succ k ih =>
    rw [List.replicate_succ]
    unfold digitsToNat at ih ⊢
    rw [List.foldl_cons]
    simpa using ih

theorem digitsToNat_natDigitsAux : ∀ f n, n < f → digitsToNat (natDigitsAux f n) = n := by
  intro f
  induction f with
  | zero => intro n h; omega
  | succ f ih =>
    intro n h
    rw [natDigitsAux]
    split_ifs with h10
    · unfold digitsToNat
      rw [List.foldl_cons]
      simp [digitChar_toNat h10]
    · rw [digitsToNat_append, ih (n / 10) (by omega)]
      have hm : (n % 10) < 10 := Nat.mod_lt n (by omega)
      unfold digitsToNat
      simp only [List.foldl_cons, List.foldl_nil, List.length_cons, List.length_nil]
      rw [digitChar_toNat hm]
      omega

theorem digitsToNat_natDigits (n : Nat) : digitsToNat (natDigits n) = n :=
  digitsToNat_natDigitsAux _ n (Nat.lt_succ_self n)

theorem natDigitsAux_length_le : ∀ f n k, n < f → n < 10 ^ k → 0 < k →
    (natDigitsAux f n).length ≤ k := by
  intro f
  induction f with
  | zero => intro n k h; omega
  | succ f ih =>
    intro n k h hk hk0
    rw [natDigitsAux]
    split_ifs with h10
    · simpa using hk0
    · rw [List.length_append]
      simp only [List.length_cons, List.length_nil]
      have hk2 : 2 ≤ k := by
        by_contra hc
        have : k = 1 := by omega
        rw [this] at hk
        simp at hk
        omega
      have hdiv : n / 10 < 10 ^ (k - 1) := by
        have h1 : 10 ^ k = 10 ^ (k - 1) * 10 := by
          rw [← Nat.pow_succ]
          congr 1
          omega
        rw [h1] at hk
        omega
      have := ih (n / 10) (k - 1) (by omega) hdiv (by omega)
      omega

theorem natDigits_length_le {n k : Nat} (h : n < 10 ^ k) (hk : 0 < k) :
    (natDigits n).length ≤ k :=
  natDigitsAux_length_le _ n k (Nat.lt_succ_self n) h hk

theorem natDigitsAux_last : ∀ f n, 0 < f →
    ∃ pre, natDigitsAux f n = pre ++ [digitChar (n % 10)] := by
  intro f
  cases f with
  | zero => intro n h; exact absurd h (lt_irrefl 0)
  | succ f =>
    intro n _
    rw [natDigitsAux]
    split_ifs with h10
    · exact ⟨[], by rw [Nat.mod_eq_of_lt h10]; rfl⟩
    · exact ⟨natDigitsAux f (n / 10), rfl⟩

/-! ### padZeros and trimFrac lemmas -/

theorem padZeros_length {w : Nat} {l : List Char} (h : l.length ≤ w) :
    (padZeros w l).length = w := by
  unfold padZeros
  rw [List.length_append, List.length_replicate]
  omega

theorem digitsToNat_padZeros (w : Nat) (l : List Char) :
    digitsToNat (padZeros w l) = digitsToNat l := by
  unfold padZeros
  rw [digitsToNat_append, digitsToNat_replicate_zero]
  simp

theorem padZeros_digits {w : Nat} {l : List Char}
    (h : ∀ c ∈ l, isDigitCh c = true) :
    ∀ c ∈ padZeros w l, isDigitCh c = true := by
  intro c hc
  rcases List.mem_append.mp hc with h1 | h1
  · rw [List.eq_of_mem_replicate h1]; decide
  · exact h c h1

theorem padZeros_last {w : Nat} {l l2 : List Char} {c : Char}
    (h : l = l2 ++ [c]) : ∃ pre, padZeros w l = pre ++ [c] := by
  unfold padZeros
  exact ⟨List.replicate (w - l.length) '0' ++ l2, by rw [h, List.append_assoc]⟩

theorem dropZeros_spec : ∀ (b : Nat) (l : List Char),
    ∃ k, l = List.replicate k '0' ++ dropZeros b l := by
  intro b
  induction b with
  | zero => intro l; exact ⟨0, rfl⟩
  | succ b ih =>
    intro l
    match l with
    | [] => exact ⟨0, rfl⟩
    | c :: cs =>
      rw [dropZeros]
      split_ifs with hc
      · rcases ih cs with ⟨k, hk⟩
        exact ⟨k + 1, by rw [List.replicate_succ, hc]; exact congrArg _ hk⟩
      · exact ⟨0, rfl⟩

theorem dropZeros_length : ∀ (b : Nat) (l : List Char),
    l.length - b ≤ (dropZeros b l).length := by
  intro b
  induction b with
  | zero => intro l; simp [dropZeros]
  | succ b ih =>
    intro l
    match l with
    | [] => simp [dropZeros]
    | c :: cs =>
      rw [dropZeros]
      split_ifs
      · have := ih cs
        simp only [List.length_cons]
        omega
      · simp only [List.length_cons]
        omega

theorem trimFrac_spec (minF : Nat) (l : List Char) :
    ∃ k, l = trimFrac minF l ++ List.replicate k '0' := by
  unfold trimFrac
  rcases dropZeros_spec (l.length - minF) l.reverse with ⟨k, hk⟩
  refine ⟨k, ?_⟩
  have h2 := congrArg List.reverse hk
  rw [List.reverse_reverse, List.reverse_append, List.reverse_replicate] at h2
  exact h2

theorem trimFrac_length_ge (minF : Nat) (l : List Char) :
    min minF l.length ≤ (trimFrac minF l).length := by
  unfold trimFrac
  rw [List.length_reverse]
  have := dropZeros_length (l.length - minF) l.reverse
  rw [List.length_reverse] at this
  omega

theorem trimFrac_last_ne_zero {minF : Nat} {l2 : List Char} {c : Char}
    (hc : c ≠ '0') : trimFrac minF (l2 ++ [c]) = l2 ++ [c] := by
  unfold trimFrac
  rw [List.reverse_append]
  simp only [List.reverse_cons, List.reverse_nil, List.nil_append, List.singleton_append]
  cases hb : (l2 ++ [c]).length - minF with
  | zero =>
    simp only [dropZeros]
    simp
  | succ b =>
    simp only [dropZeros]
    rw [if_neg hc]
    simp

/-! ### Normalization lemmas -/

theorem decNormAuxN_le : ∀ (e m : Nat), (decNormAuxN m e).2 ≤ e := by
  intro e
  induction e with
  | zero => intro m; simp [decNormAuxN]
  | succ e ih =>
    intro m
    simp only [decNormAuxN]
    split_ifs
    · exact Nat.le_succ_of_le (ih (m / 10))
    · exact Nat.le_refl _

theorem decNormAuxN_val : ∀ (e m : Nat),
    (decNormAuxN m e).1 * 10 ^ (e - (decNormAuxN m e).2) = m := by
  intro e
  induction e with
  | zero => intro m; simp [decNormAuxN]
  | succ e ih =>
    intro m
    simp only [decNormAuxN]
    split_ifs with h
    · have hle := decNormAuxN_le e (m / 10)
      have := ih (m / 10)
      have h2 : e + 1 - (decNormAuxN (m / 10) e).2 = (e - (decNormAuxN (m / 10) e).2) + 1 := by
        omega
      rw [h2, pow_succ, ← Nat.mul_assoc, this]
      omega
    · simp

theorem decNormAuxN_canon : ∀ (e m : Nat), 0 < (decNormAuxN m e).2 →
    (decNormAuxN m e).1 % 10 ≠ 0 := by
  intro e
  induction e with
  | zero => intro m h; simp [decNormAuxN] at h
  | succ e ih =>
    intro m h
    simp only [decNormAuxN] at h ⊢
    split_ifs with hm
    · rw [if_pos hm] at h
      exact ih (m / 10) h
    · exact hm

/-! ### Character-class consequences of being a digit -/

theorem isDigit_toNat {c : Char} (h : isDigitCh c = true) :
    48 ≤ c.toNat ∧ c.toNat ≤ 57 := by
  unfold isDigitCh at h
  exact of_decide_eq_true h

theorem digit_not_dot {c : Char} (h : isDigitCh c = true) : c ≠ '.' := by
  have hb := isDigit_toNat h
  refine char_ne_of_toNat_ne ?_
  have : Char.toNat '.' = 46 := by decide
  omega

theorem digit_not_comma {c : Char} (h : isDigitCh c = true) : c ≠ ',' := by
  have hb := isDigit_toNat h
  refine char_ne_of_toNat_ne ?_
  have : Char.toNat ',' = 44 := by decide
  omega

theorem digit_not_minus {c : Char} (h : isDigitCh c = true) : c ≠ '-' := by
  have hb := isDigit_toNat h
  refine char_ne_of_toNat_ne ?_
  have : Char.toNat '-' = 45 := by decide
  omega

theorem digit_not_plus {c : Char} (h : isDigitCh c = true) : c ≠ '+' := by
  have hb := isDigit_toNat h
  refine char_ne_of_toNat_ne ?_
  have : Char.toNat '+' = 43 := by decide
  omega

theorem digit_not_ws {c : Char} (h : isDigitCh c = true) : isWS c = false := by
  have hb := isDigit_toNat h
  unfold isWS
  apply decide_eq_false
  intro hor
  rcases hor with h1 | h1 | h1 | h1 | h1 | h1 | h1 | h1 <;> omega

/-! ### stripDots and commaToDot lemmas -/

theorem stripDots_append (l1 l2 : List Char) :
    stripDots (l1 ++ l2) = stripDots l1 ++ stripDots l2 := by
  unfold stripDots
  exact List.filter_append l1 l2

theorem stripDots_digits {l : List Char} (h : ∀ c ∈ l, isDigitCh c = true) :
    stripDots l = l := by
  unfold stripDots
  rw [List.filter_eq_self]
  intro c hc
  exact decide_eq_true (digit_not_dot (h c hc))

theorem stripDots_comma : stripDots [','] = [','] := by decide

theorem commaToDot_no_comma : ∀ l : List Char, ',' ∉ l → commaToDot l = l := by
  intro l
  induction l with
  | nil => intro; rfl
  | cons c cs ih =>
    intro h
    have hne : ¬(c = ',') := by
      intro hc
      exact h (by rw [hc]; exact List.mem_cons_self ',' cs)
    rw [commaToDot, if_neg hne]
    rw [ih (fun hc => h (List.mem_cons_of_mem c hc))]

theorem commaToDot_append_comma : ∀ (l1 : List Char), ',' ∉ l1 →
    ∀ l2, commaToDot (l1 ++ ',' :: l2) = l1 ++ '.' :: l2 := by
  intro l1
  induction l1 with
  | nil => intro _ l2; rw [List.nil_append, commaToDot, if_pos rfl, List.nil_append]
  | cons c cs ih =>
    intro h l2
    have hne : ¬(c = ',') := by
      intro hc
      exact h (by rw [hc]; exact List.mem_cons_self ',' cs)
    rw [List.cons_append, commaToDot, if_neg hne]
    rw [ih (fun hc => h (List.mem_cons_of_mem c hc)) l2, List.cons_append]

/-! ### takeWhile / dropWhile lemmas -/

theorem takeWhile_all {p : Char → Bool} : ∀ l : List Char,
    (∀ c ∈ l, p c = true) → l.takeWhile p = l := by
  intro l
  induction l with
  | nil => intro; rfl
  | cons c cs ih =>
    intro h
    rw [List.takeWhile_cons, if_pos (h c (List.mem_cons_self c cs))]
    rw [ih (fun x hx => h x (List.mem_cons_of_mem c hx))]

theorem dropWhile_all {p : Char → Bool} : ∀ l : List Char,
    (∀ c ∈ l, p c = true) → l.dropWhile p = [] := by
  intro l
  induction l with
  | nil => intro; rfl
  | cons c cs ih =>
    intro h
    rw [List.dropWhile_cons, if_pos (h c (List.mem_cons_self c cs))]
    exact ih (fun x hx => h x (List.mem_cons_of_mem c hx))

theorem takeWhile_append_stop {p : Char → Bool} {x : Char} (hx : p x = false) :
    ∀ (l1 : List Char), (∀ c ∈ l1, p c = true) →
    ∀ l2, (l1 ++ x :: l2).takeWhile p = l1 := by
  intro l1
  induction l1 with
  | nil => intro _ l2; rw [List.nil_append, List.takeWhile_cons, if_neg (by rw [hx]; exact Bool.false_ne_true)]
  | cons c cs ih =>
    intro h l2
    rw [List.cons_append, List.takeWhile_cons, if_pos (h c (List.mem_cons_self c cs))]
    rw [ih (fun a ha => h a (List.mem_cons_of_mem c ha)) l2]

theorem dropWhile_append_stop {p : Char → Bool} {x : Char} (hx : p x = false) :
    ∀ (l1 : List Char), (∀ c ∈ l1, p c = true) →
    ∀ l2, (l1 ++ x :: l2).dropWhile p = x :: l2 := by
  intro l1
  induction l1 with
  | nil => intro _ l2; rw [List.nil_append, List.dropWhile_cons, if_neg (by rw [hx]; exact Bool.false_ne_true)]
  | cons c cs ih =>
    intro h l2
    rw [List.cons_append, List.dropWhile_cons, if_pos (h c (List.mem_cons_self c cs))]
    exact ih (fun a ha => h a (List.mem_cons_of_mem c ha)) l2

/-! ### Grouping round-trip lemmas -/

theorem groupChunksF_join : ∀ (f sec : Nat) (l : List Char),
    (groupChunksF f sec l).flatten = l := by
  intro f
  induction f with
  | zero => intro sec l; simp [groupChunksF]
  | succ f ih =>
    intro sec l
    rw [groupChunksF]
    split_ifs
    · simp
    · rw [List.flatten_append, ih]
      simp

theorem groupChunksF_chars : ∀ (f sec : Nat) (l ch : List Char),
    ch ∈ groupChunksF f sec l → ∀ c ∈ ch, c ∈ l := by
  intro f
  induction f with
  | zero =>
    intro sec l ch hch c hc
    rw [groupChunksF] at hch
    rcases List.mem_cons.mp hch with h | h
    · rw [h] at hc; exact hc
    · exact absurd h (List.not_mem_nil ch)
  | succ f ih =>
    intro sec l ch hch c hc
    rw [groupChunksF] at hch
    split_ifs at hch
    · rcases List.mem_cons.mp hch with h | h
      · rw [h] at hc; exact hc
      · exact absurd h (List.not_mem_nil ch)
    · rcases List.mem_append.mp hch with h | h
      · exact List.mem_of_mem_take (ih _ _ ch h c hc)
      · rcases List.mem_cons.mp h with h2 | h2
        · rw [h2] at hc
          exact List.mem_of_mem_drop hc
        · exact absurd h2 (List.not_mem_nil ch)

theorem joinSep_chars (sep : List Char) : ∀ (chunks : List (List Char)) (c : Char),
    c ∈ joinSep sep chunks → (∃ ch ∈ chunks, c ∈ ch) ∨ c ∈ sep := by
  intro chunks
  induction chunks with
  | nil => intro c hc; exact absurd hc (List.not_mem_nil c)
  | cons x rest ih =>
    cases rest with
    | nil =>
      intro c hc
      rw [joinSep] at hc
      exact Or.inl ⟨x, List.mem_cons_self x [], hc⟩
    | cons y rest2 =>
      intro c hc
      rw [joinSep] at hc
      rcases List.mem_append.mp hc with h | h
      · rcases List.mem_append.mp h with h2 | h2
        · exact Or.inl ⟨x, List.mem_cons_self x _, h2⟩
        · exact Or.inr h2
      · rcases ih c h with ⟨ch, hch, hcch⟩ | h2
        · exact Or.inl ⟨ch, List.mem_cons_of_mem x hch, hcch⟩
        · exact Or.inr h2

theorem stripDots_joinSep : ∀ (chunks : List (List Char)),
    (∀ ch ∈ chunks, ∀ c ∈ ch, c ≠ '.') →
    stripDots (joinSep ['.'] chunks) = chunks.flatten := by
  intro chunks
  induction chunks with
  | nil => intro; rfl
  | cons x rest ih =>
    cases rest with
    | nil =>
      intro h
      rw [joinSep]
      have hx : stripDots x = x := by
        unfold stripDots
        rw [List.filter_eq_self]
        intro c hc
        exact decide_eq_true (h x (List.mem_cons_self x []) c hc)
      rw [hx]
      simp
    | cons y rest2 =>
      intro h
      rw [joinSep, stripDots_append, stripDots_append]
      have hx : stripDots x = x := by
        unfold stripDots
        rw [List.filter_eq_self]
        intro c hc
        exact decide_eq_true (h x (List.mem_cons_self x _) c hc)
      have hdot : stripDots ['.'] = [] := by decide
      rw [hx, hdot, ih (fun ch hch => h ch (List.mem_cons_of_mem x hch))]
      simp

theorem stripDots_groupInteger {l : List Char} (p s : Nat)
    (h : ∀ c ∈ l, isDigitCh c = true) :
    stripDots (groupInteger l p s ['.']) = l := by
  unfold groupInteger
  by_cases hcase : p = 0 ∨ l.length ≤ p
  · rw [if_pos hcase]
    exact stripDots_digits h
  · rw [if_neg hcase]
    rw [stripDots_joinSep]
    · rw [List.flatten_append, groupChunksF_join]
      simp
    · intro ch hch c hc
      rcases List.mem_append.mp hch with hL | hR
      · exact digit_not_dot (h c (List.mem_of_mem_take (groupChunksF_chars _ _ _ ch hL c hc)))
      · rcases List.mem_cons.mp hR with h2 | h2
        · rw [h2] at hc
          exact digit_not_dot (h c (List.mem_of_mem_drop hc))
        · exact absurd h2 (List.not_mem_nil ch)

theorem groupInteger_chars {l : List Char} (p s : Nat) (sep : List Char) :
    ∀ c ∈ groupInteger l p s sep, c ∈ l ∨ c ∈ sep := by
  unfold groupInteger
  by_cases hcase : p = 0 ∨ l.length ≤ p
  · rw [if_pos hcase]
    exact fun c hc => Or.inl hc
  · rw [if_neg hcase]
    intro c hc
    rcases joinSep_chars sep _ c hc with ⟨ch, hch, hcch⟩ | h2
    · rcases List.mem_append.mp hch with hL | hR
      · exact Or.inl (List.mem_of_mem_take (groupChunksF_chars _ _ _ ch hL c hcch))
      · rcases List.mem_cons.mp hR with h2 | h2
        · rw [h2] at hcch
          exact Or.inl (List.mem_of_mem_drop hcch)
        · exact absurd h2 (List.not_mem_nil ch)
    · exact Or.inr h2

/-! ### parseFloat on clean digit strings -/

theorem parseFloatJS_int_frac (c : Char) (cs d2 : List Char)
    (h1 : ∀ x ∈ c :: cs, isDigitCh x = true)
    (h2 : ∀ x ∈ d2, isDigitCh x = true) :
    parseFloatJS ((c :: cs) ++ '.' :: d2) =
      some ⟨(digitsToNat ((c :: cs) ++ d2) : Int), d2.length⟩ := by
  have hcd : isDigitCh c = true := h1 c (List.mem_cons_self c cs)
  have hnws : ¬(isWS c = true) := by
    rw [digit_not_ws hcd]
    exact Bool.false_ne_true
  have hl1 : ((c :: cs) ++ '.' :: d2).dropWhile isWS = (c :: cs) ++ '.' :: d2 := by
    rw [List.cons_append, List.dropWhile_cons, if_neg hnws, ← List.cons_append]
  have hh : ((c :: cs) ++ '.' :: d2).head? = some c := by
    rw [List.cons_append, List.head?_cons]
  have hcneg : ¬(some c = some '-') := fun h => digit_not_minus hcd (Option.some.inj h)
  have hsign : ¬(some c = some '-' ∨ some c = some '+') := by
    intro h
    rcases h with h | h
    · exact hcneg h
    · exact digit_not_plus hcd (Option.some.inj h)
  have hdotf : isDigitCh '.' = false := by decide
  have htake : ((c :: cs) ++ '.' :: d2).takeWhile isDigitCh = c :: cs :=
    takeWhile_append_stop hdotf (c :: cs) h1 d2
  have hdrop : ((c :: cs) ++ '.' :: d2).dropWhile isDigitCh = '.' :: d2 :=
    dropWhile_append_stop hdotf (c :: cs) h1 d2
  have htw : d2.takeWhile isDigitCh = d2 := takeWhile_all d2 h2
  unfold parseFloatJS
  dsimp only
  rw [hl1, hh, if_neg hsign, htake, hdrop, List.head?_cons, if_pos rfl, List.tail_cons, htw]
  rw [if_neg (fun h => List.cons_ne_nil c cs h.1)]
  rw [decide_eq_false hcneg, if_neg Bool.false_ne_true]

theorem parseFloatJS_int (c : Char) (cs : List Char)
    (h1 : ∀ x ∈ c :: cs, isDigitCh x = true) :
    parseFloatJS (c :: cs) = some ⟨(digitsToNat (c :: cs) : Int), 0⟩ := by
  have hcd : isDigitCh c = true := h1 c (List.mem_cons_self c cs)
  have hnws : ¬(isWS c = true) := by
    rw [digit_not_ws hcd]
    exact Bool.false_ne_true
  have hl1 : (c :: cs).dropWhile isWS = c :: cs := by
    rw [List.dropWhile_cons, if_neg hnws]
  have hcneg : ¬(some c = some '-') := fun h => digit_not_minus hcd (Option.some.inj h)
  have hsign : ¬(some c = some '-' ∨ some c = some '+') := by
    intro h
    rcases h with h | h
    · exact hcneg h
    · exact digit_not_plus hcd (Option.some.inj h)
  have htake : (c :: cs).takeWhile isDigitCh = c :: cs := takeWhile_all _ h1
  have hdrop : (c :: cs).dropWhile isDigitCh = [] := dropWhile_all _ h1
  have hnone : ¬((List.nil (α := Char)).head? = some '.') := by
    rw [List.head?_nil]
    exact fun h => Option.noConfusion h
  unfold parseFloatJS
  dsimp only
  rw [hl1, List.head?_cons, if_neg hsign, htake, hdrop, if_neg hnone]
  rw [if_neg (fun h => List.cons_ne_nil c cs h.1)]
  rw [decide_eq_false hcneg, if_neg Bool.false_ne_true]
  rw [List.append_nil]
  rfl

/-! ### Parsing the formatted numeric body -/

theorem parseAmountStr_body_frac (intRaw frac : List Char) (pG sG : Nat)
    (hi : ∀ c ∈ intRaw, isDigitCh c = true) (hine : intRaw ≠ [])
    (hf : ∀ c ∈ frac, isDigitCh c = true) :
    parseAmountStr (groupInteger intRaw pG sG ['.'] ++ [','] ++ frac) =
      ⟨(digitsToNat (intRaw ++ frac) : Int), frac.length⟩ := by
  obtain ⟨c, cs, rfl⟩ : ∃ c cs, intRaw = c :: cs := by
    cases intRaw with
    | nil => exact absurd rfl hine
    | cons c cs => exact ⟨c, cs, rfl⟩
  have hsd : stripDots (groupInteger (c :: cs) pG sG ['.'] ++ [','] ++ frac) =
      (c :: cs) ++ ',' :: frac := by
    rw [stripDots_append, stripDots_append, stripDots_groupInteger _ _ hi,
      stripDots_comma, stripDots_digits hf, List.append_assoc]
    rfl
  have hcm : ',' ∉ (c :: cs) := fun hc => digit_not_comma (hi ',' hc) rfl
  unfold parseAmountStr
  rw [hsd, commaToDot_append_comma (c :: cs) hcm frac, parseFloatJS_int_frac c cs frac hi hf]

theorem parseAmountStr_body_int (intRaw : List Char) (pG sG : Nat)
    (hi : ∀ c ∈ intRaw, isDigitCh c = true) (hine : intRaw ≠ []) :
    parseAmountStr (groupInteger intRaw pG sG ['.']) =
      ⟨(digitsToNat intRaw : Int), 0⟩ := by
  obtain ⟨c, cs, rfl⟩ : ∃ c cs, intRaw = c :: cs := by
    cases intRaw with
    | nil => exact absurd rfl hine
    | cons c cs => exact ⟨c, cs, rfl⟩
  have hcm : ',' ∉ (c :: cs) := fun hc => digit_not_comma (hi ',' hc) rfl
  unfold parseAmountStr
  rw [stripDots_groupInteger _ _ hi, commaToDot_no_comma _ hcm, parseFloatJS_int c cs hi]

theorem eqv_body_nofrac (pat : LocalePattern) (hg : pat.groupSep = ['.'])
    (N dp : Nat) (hmod : N % 10 ^ dp = 0) :
    decEqv (parseAmountStr (groupInteger (natDigits (N / 10 ^ dp))
        pat.primaryGroup pat.secondaryGroup pat.groupSep))
      ⟨(N : Int), dp⟩ := by
  rw [hg, parseAmountStr_body_int _ _ _ (natDigits_digits _) (natDigits_ne_nil _)]
  unfold decEqv
  dsimp only
  rw [digitsToNat_natDigits, pow_zero, mul_one]
  have hNat : N / 10 ^ dp * 10 ^ dp = N :=
    Nat.div_mul_cancel (Nat.dvd_of_mod_eq_zero hmod)
  exact_mod_cast hNat

theorem eqv_body_frac (pat : LocalePattern) (hd : pat.decimalSep = [','])
    (hg : pat.groupSep = ['.'])
    (N dp : Nat) (frac : List Char)
    (hfdig : ∀ c ∈ frac, isDigitCh c = true)
    (hkey : (N / 10 ^ dp * 10 ^ frac.length + digitsToNat frac) * 10 ^ dp =
      N * 10 ^ frac.length) :
    decEqv (parseAmountStr (groupInteger (natDigits (N / 10 ^ dp))
        pat.primaryGroup pat.secondaryGroup pat.groupSep ++ pat.decimalSep ++ frac))
      ⟨(N : Int), dp⟩ := by
  rw [hd, hg,
    parseAmountStr_body_frac _ _ _ _ (natDigits_digits _) (natDigits_ne_nil _) hfdig]
  unfold decEqv
  dsimp only
  rw [digitsToNat_append, digitsToNat_natDigits]
  exact_mod_cast hkey

theorem parse_body_core (minF dp N : Nat) (pat : LocalePattern)
    (hd : pat.decimalSep = [','] ) (hg : pat.groupSep = ['.'])
    (frac0 : List Char)
    (hf0dig : ∀ c ∈ frac0, isDigitCh c = true)
    (hf0len : frac0.length = dp)
    (hf0val : digitsToNat frac0 = N % 10 ^ dp) :
    decEqv (parseAmountStr
      (if (if trimFrac minF frac0 = [] ∧ 0 < minF then List.replicate minF '0'
        else trimFrac minF frac0) = []
       then groupInteger (natDigits (N / 10 ^ dp)) pat.primaryGroup
         pat.secondaryGroup pat.groupSep
       else groupInteger (natDigits (N / 10 ^ dp)) pat.primaryGroup
         pat.secondaryGroup pat.groupSep ++ pat.decimalSep ++
         (if trimFrac minF frac0 = [] ∧ 0 < minF then List.replicate minF '0'
          else trimFrac minF frac0)))
      ⟨(N : Int), dp⟩ := by
  obtain ⟨k, hsplit⟩ := trimFrac_spec minF frac0
  have hfrdig : ∀ c ∈ trimFrac minF frac0, isDigitCh c = true := by
    intro c hc
    refine hf0dig c ?_
    rw [hsplit]
    exact List.mem_append_left _ hc
  have hf1val : digitsToNat frac0 = digitsToNat (trimFrac minF frac0) * 10 ^ k := by
    conv_lhs => rw [hsplit]
    rw [digitsToNat_append, digitsToNat_replicate_zero, List.length_replicate]
    omega
  have hf1len : dp = (trimFrac minF frac0).length + k := by
    rw [← hf0len]
    conv_lhs => rw [hsplit]
    rw [List.length_append, List.length_replicate]
  by_cases hpad : trimFrac minF frac0 = [] ∧ 0 < minF
  · rw [if_pos hpad]
    have hrep : (List.replicate minF '0' : List Char) ≠ [] := by
      intro h
      have := congrArg List.length h
      rw [List.length_replicate] at this
      simp at this
      omega
    rw [if_neg hrep]
    have hdp0 : dp = 0 := by
      have hlen := trimFrac_length_ge minF frac0
      rw [hpad.1] at hlen
      simp only [List.length_nil, Nat.le_zero] at hlen
      have hminF := hpad.2
      have hlen0 := hf0len
      omega
    subst hdp0
    refine eqv_body_frac pat hd hg N 0 _ ?_ ?_
    · intro c hc
      rw [List.eq_of_mem_replicate hc]
      decide
    · rw [digitsToNat_replicate_zero, pow_zero, Nat.div_one]
      omega
  · rw [if_neg hpad]
    by_cases hfe : trimFrac minF frac0 = []
    · rw [if_pos hfe]
      have hmod : N % 10 ^ dp = 0 := by
        rw [← hf0val, hf1val, hfe]
        simp [digitsToNat]
      exact eqv_body_nofrac pat hg N dp hmod
    · rw [if_neg hfe]
      refine eqv_body_frac pat hd hg N dp _ hfrdig ?_
      have hdm := Nat.div_add_mod N (10 ^ dp)
      have hmodval : N % 10 ^ dp = digitsToNat (trimFrac minF frac0) * 10 ^ k := by
        rw [← hf0val, hf1val]
      have hN2 : N = N / 10 ^ dp * 10 ^ dp + digitsToNat (trimFrac minF frac0) * 10 ^ k := by
        rw [hmodval, Nat.mul_comm (10 ^ dp) (N / 10 ^ dp)] at hdm
        omega
      conv_rhs => rw [hN2]
      rw [hf1len, pow_add]
      ring

theorem frac0_facts (dp N : Nat) :
    (∀ c ∈ (if dp = 0 then [] else padZeros dp (natDigits (N % 10 ^ dp))),
      isDigitCh c = true) ∧
    (if dp = 0 then ([] : List Char)
      else padZeros dp (natDigits (N % 10 ^ dp))).length = dp ∧
    digitsToNat (if dp = 0 then []
      else padZeros dp (natDigits (N % 10 ^ dp))) = N % 10 ^ dp := by
  by_cases h : dp = 0
  · subst h
    rw [if_pos rfl]
    refine ⟨fun c hc => absurd hc (List.not_mem_nil c), rfl, ?_⟩
    rw [pow_zero, Nat.mod_one]
    rfl
  · rw [if_neg h]
    refine ⟨padZeros_digits (natDigits_digits _), ?_, ?_⟩
    · exact padZeros_length (natDigits_length_le
        (Nat.mod_lt _ (Nat.pos_pow_of_pos dp (by omega))) (by omega))
    · rw [digitsToNat_padZeros, digitsToNat_natDigits]

theorem parse_formatNumericBody (minF : Nat) (mf : Option Nat) (pat : LocalePattern)
    (hd : pat.decimalSep = [','] ) (hg : pat.groupSep = ['.']) (am ae : Nat) :
    decEqv (parseAmountStr (formatNumericBody minF mf pat am ae))
      (truncDecN mf am ae) := by
  unfold formatNumericBody truncDecN
  rcases mf with _ | mk
  · dsimp only
    exact parse_body_core minF _ _ pat hd hg _
      (frac0_facts _ _).1 (frac0_facts _ _).2.1 (frac0_facts _ _).2.2
  · dsimp only
    exact parse_body_core minF _ _ pat hd hg _
      (frac0_facts _ _).1 (frac0_facts _ _).2.1 (frac0_facts _ _).2.2

theorem decEqv_trans {a b c : Dec} (h1 : decEqv a b) (h2 : decEqv b c) :
    decEqv a c := by
  unfold decEqv at h1 h2 ⊢
  have hz : ((10 : Int) ^ b.e) ≠ 0 := pow_ne_zero _ (by norm_num)
  refine mul_left_cancel₀ hz ?_
  calc (10 : Int) ^ b.e * (a.m * 10 ^ c.e)
      = (a.m * 10 ^ b.e) * 10 ^ c.e := by ring
    _ = (b.m * 10 ^ a.e) * 10 ^ c.e := by rw [h1]
    _ = (b.m * 10 ^ c.e) * 10 ^ a.e := by ring
    _ = (c.m * 10 ^ b.e) * 10 ^ a.e := by rw [h2]
    _ = (10 : Int) ^ b.e * (c.m * 10 ^ a.e) := by ring

theorem trunc_eqv_of_within (mf : Option Nat) (am ae : Nat)
    (h : withinMaxB mf (decNormAuxN am ae).2 = true) :
    decEqv (truncDecN mf am ae) ⟨(am : Int), ae⟩ := by
  have hkey : (decNormAuxN am ae).1 * 10 ^ ae = am * 10 ^ (decNormAuxN am ae).2 := by
    have hv := decNormAuxN_val ae am
    have hle := decNormAuxN_le ae am
    calc (decNormAuxN am ae).1 * 10 ^ ae
        = (decNormAuxN am ae).1 * 10 ^ (ae - (decNormAuxN am ae).2 + (decNormAuxN am ae).2) := by
          rw [Nat.sub_add_cancel hle]
      _ = (decNormAuxN am ae).1 * 10 ^ (ae - (decNormAuxN am ae).2) * 10 ^ (decNormAuxN am ae).2 := by
          rw [pow_add, mul_assoc]
      _ = am * 10 ^ (decNormAuxN am ae).2 := by rw [hv]
  unfold withinMaxB at h
  unfold truncDecN decEqv
  rcases mf with _ | mk
  · dsimp only
    rw [Nat.sub_self, pow_zero, Nat.div_one]
    exact_mod_cast hkey
  · dsimp only at h ⊢
    have hle2 := of_decide_eq_true h
    rw [Nat.min_eq_left hle2, Nat.sub_self, pow_zero, Nat.div_one]
    exact_mod_cast hkey

/-! ### Claim C5 -/

/-- C5 (counterexample): for the configured currency "BRL"
(minFraction 2, no maximum) and the value 1.5 — whose single fraction
digit is within the maximum — the formatted string is "R$\u00A01,5":
the fraction is NOT zero-padded to the configured minimum of 2 digits
(padding only happens when the fraction is empty), and parsing the string
back yields 0, not 1.5, because the currency prefix makes `parseFloat`
return NaN (defaulted to 0 by `|| 0`). -/
theorem C5_counterexample :
    formatDecimalByCommodity "BRL" ⟨15, 1⟩ RULES =
      ('R' :: '$' :: nbsp :: '1' :: ',' :: '5' :: []) ∧
    ¬ decEqv (parseAmountStr (formatDecimalByCommodity "BRL" ⟨15, 1⟩ RULES))
      ⟨15, 1⟩ :=
  ⟨by decide, by decide⟩

/-- C5 (amended): for every commodity whose looked-up rule yields the
standard pt-BR separators (decimal "," and group "." — every configured
rule except the zero-decimal currency KRW, whose probed decimal separator
degenerates to ".") and every non-negative exact decimal `am / 10 ^ ae`:
parsing the UNAFFIXED numeric body back recovers exactly the value
truncated (never rounded) to the rule's maximum fraction-digit count, and
hence recovers the original value whenever its fraction digits do not
exceed that maximum. (The full formatted string never round-trips: every
configured rule attaches a currency or symbol prefix, which `parseAmount`
does not strip — see the counterexample.) -/
theorem C5_format_parse_roundtrip (c : String) (am ae : Nat)
    (hd : (detectLocalePattern ((lookupRule RULES c).locale.getD "en-US")
      (lookupRule RULES c).currency).decimalSep = [','])
    (hg : (detectLocalePattern ((lookupRule RULES c).locale.getD "en-US")
      (lookupRule RULES c).currency).groupSep = ['.']) :
    decEqv
      (parseAmountStr (formatNumericBody ((lookupRule RULES c).minFraction.getD 0)
        (lookupRule RULES c).maxFraction
        (detectLocalePattern ((lookupRule RULES c).locale.getD "en-US")
          (lookupRule RULES c).currency) am ae))
      (truncDecN (lookupRule RULES c).maxFraction am ae) ∧
    (withinMaxB (lookupRule RULES c).maxFraction (decNormAuxN am ae).2 = true →
      decEqv
        (parseAmountStr (formatNumericBody ((lookupRule RULES c).minFraction.getD 0)
          (lookupRule RULES c).maxFraction
          (detectLocalePattern ((lookupRule RULES c).locale.getD "en-US")
            (lookupRule RULES c).currency) am ae))
        ⟨(am : Int), ae⟩) :=
  ⟨parse_formatNumericBody _ _ _ hd hg am ae,
   fun hw => decEqv_trans (parse_formatNumericBody _ _ _ hd hg am ae)
     (trunc_eqv_of_within _ am ae hw)⟩

/-- C5 (witness): the BRL rule at the value 15.00 (two fraction digits,
within the unbounded maximum): its body "15,00" parses back to 15. -/
theorem C5_format_parse_roundtrip_witness :
    ((detectLocalePattern ((lookupRule RULES "BRL").locale.getD "en-US")
      (lookupRule RULES "BRL").currency).decimalSep = [','] ∧
     (detectLocalePattern ((lookupRule RULES "BRL").locale.getD "en-US")
      (lookupRule RULES "BRL").currency).groupSep = ['.'] ∧
     withinMaxB (lookupRule RULES "BRL").maxFraction (decNormAuxN 1500 2).2 = true) ∧
    decEqv
      (parseAmountStr (formatNumericBody ((lookupRule RULES "BRL").minFraction.getD 0)
        (lookupRule RULES "BRL").maxFraction
        (detectLocalePattern ((lookupRule RULES "BRL").locale.getD "en-US")
          (lookupRule RULES "BRL").currency) 1500 2))
      ⟨(1500 : Int), 2⟩ :=
  ⟨⟨by decide, by decide, by decide⟩,
   (C5_format_parse_roundtrip "BRL" 1500 2 (by decide) (by decide)).2 (by decide)⟩

/-! ### Claim C10 -/

theorem natDigits_last (n : Nat) :
    ∃ pre, natDigits n = pre ++ [digitChar (n % 10)] := by
  unfold natDigits
  exact natDigitsAux_last (n + 1) n (Nat.succ_pos n)

theorem formatNumericBody_min0_none (pat : LocalePattern) (am ae : Nat) :
    formatNumericBody 0 none pat am ae =
      groupInteger (natDigits ((decNormAuxN am ae).1 / 10 ^ (decNormAuxN am ae).2))
        pat.primaryGroup pat.secondaryGroup pat.groupSep ++
      (if (decNormAuxN am ae).2 = 0 then []
       else pat.decimalSep ++ padZeros (decNormAuxN am ae).2
         (natDigits ((decNormAuxN am ae).1 % 10 ^ (decNormAuxN am ae).2))) := by
  unfold formatNumericBody
  dsimp only
  rw [Nat.sub_self, pow_zero, Nat.div_one]
  by_cases h0 : (decNormAuxN am ae).2 = 0
  · rw [if_pos h0, if_pos h0]
    rw [show (if trimFrac 0 ([] : List Char) = [] ∧ 0 < 0 then List.replicate 0 '0'
      else trimFrac 0 ([] : List Char)) = ([] : List Char) from rfl]
    rw [if_pos rfl, List.append_nil]
  · rw [if_neg h0, if_neg h0]
    have hcanon : (decNormAuxN am ae).1 % 10 ≠ 0 := decNormAuxN_canon ae am (by omega)
    obtain ⟨pre, hpre⟩ := natDigits_last
      ((decNormAuxN am ae).1 % 10 ^ (decNormAuxN am ae).2)
    have hdvd : (10 : Nat) ∣ 10 ^ (decNormAuxN am ae).2 := dvd_pow_self 10 h0
    have hmm : (decNormAuxN am ae).1 % 10 ^ (decNormAuxN am ae).2 % 10 =
        (decNormAuxN am ae).1 % 10 := Nat.mod_mod_of_dvd _ hdvd
    obtain ⟨pre2, hpre2⟩ := padZeros_last (w := (decNormAuxN am ae).2) hpre
    have hlast : digitChar ((decNormAuxN am ae).1 % 10 ^ (decNormAuxN am ae).2 % 10) ≠ '0' := by
      refine digitChar_ne_zero (Nat.mod_lt _ (by omega)) ?_
      rw [hmm]
      exact hcanon
    set padT := padZeros (decNormAuxN am ae).2
      (natDigits ((decNormAuxN am ae).1 % 10 ^ (decNormAuxN am ae).2)) with hpadT
    have htrim : trimFrac 0 padT = padT := by
      rw [hpre2]
      exact trimFrac_last_ne_zero hlast
    have hne : padT ≠ [] := by
      rw [hpre2]
      exact List.append_ne_nil_of_right_ne_nil _ (List.cons_ne_nil _ _)
    have hInner : ¬(padT = [] ∧ 0 < 0) := fun h => lt_irrefl 0 h.2
    rw [htrim]
    have hOuter : (if padT = [] ∧ 0 < 0 then List.replicate 0 '0' else padT) ≠ [] := by
      rw [if_neg hInner]
      exact hne
    rw [if_neg hOuter, if_neg hInner, List.append_assoc]

/-- C10: a commodity code with no entry in `RULES` is formatted by the
fallback path, which is total by construction: en-US pattern ("." decimal,
"," grouping 3-and-3), no currency prefix/suffix and no symbol, minimum
fraction digits 0 (no padding) and no maximum (no truncation) — the
output is exactly all of the value's own digits, grouped per en-US, with
a leading "-" for negative values, as `enUSDefaultFormat` spells out. -/
theorem C10_default_format (c : String) (d : Dec)
    (hc : RULES.find? (fun p => decide (p.1 = c)) = none) :
    formatDecimalByCommodity c d RULES = enUSDefaultFormat d := by
  have hrule : lookupRule RULES c = emptyRule := by
    unfold lookupRule
    rw [hc]
  unfold formatDecimalByCommodity enUSDefaultFormat
  rw [hrule]
  dsimp only [emptyRule, Option.getD]
  rw [show detectLocalePattern "en-US" none = ⟨['.'], [','], [], [], ['-'], 3, 3⟩
    from by decide]
  rw [formatNumericBody_min0_none]
  dsimp only
  by_cases hneg : d.m < 0
  · rw [if_pos hneg, if_pos hneg]
    by_cases h0 : (decNormAuxN d.m.natAbs d.e).2 = 0
    · rw [if_pos h0, if_pos h0]
      simp
    · rw [if_neg h0, if_neg h0]
      simp
  · rw [if_neg hneg, if_neg hneg]
    by_cases h0 : (decNormAuxN d.m.natAbs d.e).2 = 0
    · rw [if_pos h0, if_pos h0]
      simp
    · rw [if_neg h0, if_neg h0]
      simp

/-- C10 (witness): the unconfigured commodity "XYZ" at −123456.78 renders
as "-123,456.78" — all digits kept, en-US separators, no affix. -/
theorem C10_default_format_witness :
    RULES.find? (fun p => decide (p.1 = "XYZ")) = none ∧
    formatDecimalByCommodity "XYZ" ⟨-12345678, 2⟩ RULES =
      enUSDefaultFormat ⟨-12345678, 2⟩ ∧
    enUSDefaultFormat ⟨-12345678, 2⟩ =
      ('-' :: '1' :: '2' :: '3' :: ',' :: '4' :: '5' :: '6' :: '.' :: '7' :: '8' :: []) :=
  ⟨by decide, C10_default_format "XYZ" ⟨-12345678, 2⟩ (by decide), by decide⟩

end Ledger
